import Mathlib

/-!
Verification of the Hissp compiler core (munger, reader, emitter, macro
expansion) against its natural-language specification.

The development shallowly embeds the relevant Python functions from
`src/hissp/munger.py`, `src/hissp/reader.py` and `src/hissp/compiler.py`
as executable Lean definitions over `List Char` / `String`, `Int` and a
`Form` datatype mirroring the Hissp data model (atoms and tuples).

Host-language facts (Unicode NFKC, `str.isidentifier`, `unicodedata`
names, `ast.literal_eval`) are modelled on the ASCII fragment, which is
the domain all the verified claims quantify over; each such modelling
choice is noted at the definition it concerns.
-/

namespace Hissp

/-! ## Character classes (ASCII model of Python's identifier rules)

Python's `str.isidentifier` restricted to ASCII text accepts exactly
`[A-Za-z_][A-Za-z0-9_]*`.  All munger claims are settled on the ASCII
fragment, where NFKC normalization is the identity.
-/

def isAsciiUpper (c : Char) : Bool := 'A' ≤ c && c ≤ 'Z'

def isAsciiLower (c : Char) : Bool := 'a' ≤ c && c ≤ 'z'

def isAsciiDigit (c : Char) : Bool := '0' ≤ c && c ≤ '9'

/-- Identifier-continue character (ASCII): letters, digits, underscore. -/
def isIdentCont (c : Char) : Bool :=
  isAsciiUpper c || isAsciiLower c || isAsciiDigit c || c = '_'

/-- Identifier-start character (ASCII): letters and underscore. -/
def isIdentStart (c : Char) : Bool :=
  isAsciiUpper c || isAsciiLower c || c = '_'

/-- Model of Python's `str.isidentifier` on ASCII strings. -/
def pyIsIdent (l : List Char) : Bool :=
  match l with
  | [] => false
  | c :: cs => isIdentStart c && cs.all isIdentCont

/-- Model of Unicode NFKC normalization.  NFKC is the identity on ASCII
text, which is the domain of the munger claims. -/
def nfkcAscii (l : List Char) : List Char := l

/-! ## Munger (`src/hissp/munger.py`)

`TO_NAME` maps characters to the bodies of their short-name Quotez; the
emitted escape for body `B` is `Qz` ++ `B` ++ `_` (`QUOTEZ` format). -/

def TO_NAME : List (Char × List Char) := [
  ('!', "BANG".data),
  ('"', "QUOT".data),
  ('#', "HASH".data),
  ('$', "DOLR".data),
  ('%', "PCENT".data),
  ('&', "ET".data),
  ('\'', "APOS".data),
  ('(', "LPAR".data),
  (')', "RPAR".data),
  ('*', "STAR".data),
  ('+', "PLUS".data),
  ('-', "H".data),
  ('.', "DOT".data),
  ('/', "SOL".data),
  (';', "SEMI".data),
  ('<', "LT".data),
  ('=', "EQ".data),
  ('>', "GT".data),
  ('?', "QUERY".data),
  ('@', "AT".data),
  ('[', "LSQB".data),
  ('\\', "BSOL".data),
  (']', "RSQB".data),
  ('^', "HAT".data),
  (Char.ofNat 96, "GRAVE".data),
  (Char.ofNat 123, "LCUB".data),
  ('|', "VERT".data),
  (Char.ofNat 125, "RCUB".data)]

/-- Model of `unicodedata.name` restricted to the ASCII characters the
munger can actually feed it: the printable non-identifier characters
without a short name, and the digits (force-encoded in first position).
`'-'` has a short name, so its entry is only used by `demunge`'s
`unicodedata.lookup`.  ASCII control characters have no Unicode name
(the source falls through to ordinals for them, as does this model by
leaving them out of the table). -/
def UNICODE_NAME : List (Char × List Char) := [
  (' ', "SPACE".data),
  (',', "COMMA".data),
  (':', "COLON".data),
  ('~', "TILDE".data),
  ('-', "HYPHEN-MINUS".data),
  ('0', "DIGIT ZERO".data),
  ('1', "DIGIT ONE".data),
  ('2', "DIGIT TWO".data),
  ('3', "DIGIT THREE".data),
  ('4', "DIGIT FOUR".data),
  ('5', "DIGIT FIVE".data),
  ('6', "DIGIT SIX".data),
  ('7', "DIGIT SEVEN".data),
  ('8', "DIGIT EIGHT".data),
  ('9', "DIGIT NINE".data)]

/-- `_QZ_NAME` translation: spaces become `x`, hyphens become `h`. -/
def qzName (n : List Char) : List Char :=
  n.map fun c => if c = ' ' then 'x' else if c = '-' then 'h' else c

/-- `_UN_QZ_NAME` translation: `x` becomes space, `h` becomes hyphen. -/
def unQzName (n : List Char) : List Char :=
  n.map fun c => if c = 'x' then ' ' else if c = 'h' then '-' else c

/-- Wrap an escape body in the `Qz`/`_` delimiters (`QUOTEZ.format`). -/
def quotez (body : List Char) : List Char := 'Q' :: 'z' :: (body ++ ['_'])

def hexDigitU (n : Nat) : Char :=
  if n < 10 then Char.ofNat (48 + n) else Char.ofNat (55 + n)

def natHexUGo : Nat → Nat → List Char
  | 0, n => [hexDigitU (n % 16)]
  | f + 1, n =>
    if n < 16 then [hexDigitU n]
    else natHexUGo f (n / 16) ++ [hexDigitU (n % 16)]

/-- Uppercase hexadecimal digits of a natural number (no leading zeros;
`0` renders as `"0"`), as in Python's format spec `#X` minus the `0X`.
The fuel `n` always suffices since the value shrinks by 16 each step. -/
def natHexU (n : Nat) : List Char := natHexUGo n n

/-- The escape body `force_qz_encode` picks for a character: short name
first, then Unicode name (with the `_QZ_NAME` translation), then the
`#X`-formatted ordinal. -/
def forceBody (c : Char) : List Char :=
  match TO_NAME.lookup c with
  | some b => b
  | none =>
    match UNICODE_NAME.lookup c with
    | some n => qzName n
    | none => '0' :: 'X' :: natHexU c.toNat

/-- `force_qz_encode`: convert a character to its Quotez encoding even if
it is valid in a Python identifier. -/
def force_qz_encode (c : Char) : List Char := quotez (forceBody c)

/-- `qz_encode`: keep a character valid in identifiers, else encode it.
The source tests `("x" + c).isidentifier()`, i.e. identifier-continue. -/
def qz_encode (c : Char) : List Char :=
  if isIdentCont c then [c] else force_qz_encode c

/-- `_munge_part`: encode one dot-delimited segment character-wise, then
force-encode the first character if the result is not an identifier
(which on ASCII happens exactly when the segment starts with a digit). -/
def munge_part (p : List Char) : List Char :=
  match p with
  | [] => []
  | _ :: _ =>
    let q := (p.map qz_encode).flatten
    if pyIsIdent q then q
    else
      match q with
      | [] => []
      | c :: rest => force_qz_encode c ++ rest

/-- Python's `str.split` on a single `.` separator (keeps empty parts). -/
def splitDot : List Char → List (List Char)
  | [] => [[]]
  | c :: cs =>
    if c = '.' then [] :: splitDot cs
    else
      match splitDot cs with
      | [] => [[c]]
      | p :: ps => (c :: p) :: ps

/-- `".".join` on segment lists. -/
def joinDot : List (List Char) → List Char
  | [] => []
  | [p] => p
  | p :: ps => p ++ '.' :: joinDot ps

/-- `munge`: NFKC-normalize, return unchanged if already an identifier,
else encode each dot-delimited segment and re-join with dots. -/
def mungeL (s : List Char) : List Char :=
  let s := nfkcAscii s
  if pyIsIdent s then s
  else joinDot ((splitDot s).map munge_part)

def munge (s : String) : String := String.mk (mungeL s.data)

/-! ## Demunger -/

/-- Escape-body character class `[0-9A-Zhx]` of `FIND_QUOTEZ`. -/
def isBodyChar (c : Char) : Bool :=
  isAsciiDigit c || isAsciiUpper c || c = 'h' || c = 'x'

/-- Escape-body start class `[0-9A-Z]` of `FIND_QUOTEZ`. -/
def isBodyStart (c : Char) : Bool := isAsciiDigit c || isAsciiUpper c

/-- Attempt to read, immediately after a `Qz`, the lazy regex suffix
`([0-9A-Z][0-9A-Zhx]*?)_`.  Because `_` is not in the body class, the
lazy match is forced: take body characters until the first non-body
character, which must be the closing `_`. -/
def scanBody (l : List Char) : Option (List Char × List Char) :=
  match l with
  | [] => none
  | c :: cs =>
    if isBodyStart c then
      match cs.dropWhile isBodyChar with
      | '_' :: rest => some (c :: cs.takeWhile isBodyChar, rest)
      | _ => none
    else none

/-- Value of an uppercase-hex digit character. -/
def hexVal (c : Char) : Option Nat :=
  if isAsciiDigit c then some (c.toNat - 48)
  else if 'A' ≤ c && c ≤ 'F' then some (c.toNat - 55)
  else if 'a' ≤ c && c ≤ 'f' then some (c.toNat - 87)
  else none

/-- Model of Python's `int(s, 16)` on the digit part after the `0X`
prefix (which `int` accepts and `_qz_decode` is guaranteed by its guard;
an empty digit part is invalid, as in `int("0X", 16)`). -/
def hexParse (l : List Char) : Option Nat :=
  match l with
  | [] => none
  | _ =>
    l.foldl (fun acc c =>
      match acc, hexVal c with
      | some a, some v => some (16 * a + v)
      | _, _ => none) (some 0)

/-- `_qz_decode`: decode one matched escape body.  Short-name lookup on
the full escape first, then Unicode-name lookup (after the inverse
translation), then a `0X`-prefixed ordinal; otherwise the match is left
unchanged.  (Ordinals decoding to invalid code points are left
unchanged, as `chr` raising `ValueError` would leave them.) -/
def qz_decode (body : List Char) : List Char :=
  match TO_NAME.find? (fun p => p.2 = body) with
  | some (c, _) => [c]
  | none =>
    match UNICODE_NAME.find? (fun p => p.2 = unQzName body) with
    | some (c, _) => [c]
    | none =>
      match body with
      | '0' :: 'X' :: ds =>
        match hexParse ds with
        | some v =>
          if h : v < 0xd800 then [Char.ofNat v] else quotez body
        | none => quotez body
      | _ => quotez body

/-- Fuelled worker for `demunge`; every step consumes at least one
character, so fuel equal to the input length always suffices (the
fuel-exhausted fallback is unreachable from `demungeL`). -/
def demungeGo : Nat → List Char → List Char
  | 0, l => l
  | _ + 1, [] => []
  | fuel + 1, c :: cs =>
    if c = 'Q' ∧ cs.head? = some 'z' then
      match scanBody cs.tail with
      | some (body, rest') => qz_decode body ++ demungeGo fuel rest'
      | none => c :: demungeGo fuel cs
    else c :: demungeGo fuel cs

/-- `demunge`: substitute every `FIND_QUOTEZ` match left to right (the
replacement is not rescanned, matching `re.sub`); text between matches,
and any invalid Quotez, is left as-is. -/
def demungeL (l : List Char) : List Char := demungeGo l.length l

def demunge (s : String) : String := String.mk (demungeL s.data)

/-! ## Round-trip analysis for the munger

The spec claims `munge(demunge(munge(s))) == munge(s)` for every string.
The development below settles it: the equation fails on strings that
already contain a decodable non-canonical Quotez (counterexample
`"QzHYPHENhMINUS_"`), and holds on ASCII strings containing no `Qz`
bigram, where in fact `demunge (munge s) = s`. -/

/-- Whether a list contains the bigram `Qz` (adjacent characters). -/
def hasQz : List Char → Bool
  | [] => false
  | c :: cs => (c == 'Q' && cs.head? == some 'z') || hasQz cs

def asciiOnly (l : List Char) : Bool := l.all (fun c => c.toNat < 128)

/-- A body is accepted by `FIND_QUOTEZ` when it starts in `[0-9A-Z]` and
continues in `[0-9A-Zhx]`. -/
def goodBody : List Char → Bool
  | [] => false
  | c :: cs => isBodyStart c && cs.all isBodyChar

/-- Executable per-character check used (over all 128 ASCII codes) to
verify that a force-encoded character decodes back to itself: the body
is a valid `FIND_QUOTEZ` body, it decodes to exactly the character, and
the whole escape consists of identifier characters. -/
def escCheck (c : Char) : Bool :=
  goodBody (forceBody c) && (qz_decode (forceBody c) == [c])
    && (quotez (forceBody c)).all isIdentCont

/-- Relates munger output to its source: the output is a mix of kept
characters (never forming a spurious `Qz` with what follows) and
well-formed escapes that decode back to the source character.
`demunge` inverts any list built this way. -/
inductive Inv : List Char → List Char → Prop
  | nil : Inv [] []
  | keep {c : Char} {M s : List Char} :
      ¬(c = 'Q' ∧ M.head? = some 'z') → Inv M s → Inv (c :: M) (c :: s)
  | esc {B : List Char} {c : Char} {M s : List Char} :
      goodBody B = true → qz_decode B = [c] → Inv M s →
      Inv ('Q' :: 'z' :: (B ++ '_' :: M)) (c :: s)

/-- The character-wise encoding of a segment before the first-character
fixup (`"".join(map(qz_encode, part))`). -/
def encChars (p : List Char) : List Char := (p.map qz_encode).flatten

/-! ## Template symbol qualification (`src/hissp/reader.py`)

`is_qualifiable` and `Parser.qualify`.  The host facts involved —
`keyword.iskeyword` and `str.isidentifier` — are modelled on ASCII
(the keyword table is Python's full reserved-word list). -/

/-- Python's reserved words (`keyword.kwlist`); `keyword.iskeyword`
tests membership here. -/
def PY_KEYWORDS : List String := [
  "False", "None", "True", "and", "as", "assert", "async", "await",
  "break", "class", "continue", "def", "del", "elif", "else", "except",
  "finally", "for", "from", "global", "if", "import", "in", "is",
  "lambda", "nonlocal", "not", "or", "pass", "raise", "return", "try",
  "while", "with", "yield"]

def iskeyword (s : String) : Bool := PY_KEYWORDS.contains s

/-- Character class `[a-z2-7]` of the gensym-hash pattern (lower-case
Base32 alphabet). -/
def isB32Lower (c : Char) : Bool :=
  ('a' ≤ c && c ≤ 'z') || ('2' ≤ c && c ≤ '7')

/-- Model of `re.match(r"_Qz[a-z2-7]+__", symbol)` viewed as a Bool:
a match at the start of the string.  Since `_` is not in `[a-z2-7]`,
the greedy run is forced maximal and must be followed by `__`. -/
def gensymPrefixMatch (l : List Char) : Bool :=
  match l with
  | '_' :: 'Q' :: 'z' :: rest =>
    (match rest.takeWhile isB32Lower, rest.dropWhile isB32Lower with
     | [], _ => false
     | _ :: _, '_' :: '_' :: _ => true
     | _, _ => false)
  | _ => false

/-- `is_qualifiable`: not `quote` or `__import__`, not a reserved word,
not an auto-gensym prefix, and every dot-separated part an identifier. -/
def is_qualifiable (symbol : String) : Bool :=
  !(symbol == "quote") && !(symbol == "__import__")
    && !(iskeyword symbol)
    && !(gensymPrefixMatch symbol.data)
    && (splitDot symbol.data).all pyIsIdent

/-- The compile-time environment facts `Parser.qualify` consults: the
module qualname, the keys of the module dict, the attribute names of
its `_macro_` namespace (meaningful only when `"_macro_"` is a key),
and the host's `dir(builtins)`. -/
structure QEnv where
  qualname : String
  envKeys : List String
  macroAttrs : List String
  builtinsDir : List String

/-- `symbol.split(".", 1)[0]`: the root name before the first dot. -/
def rootName (s : String) : String := String.mk (s.data.takeWhile (· ≠ '.'))

/-- `Parser.qualify`: qualify a template symbol based on invocation
position and the environment (the source's early returns become a
nested conditional). -/
def qualify (env : QEnv) (symbol : String) (invocation : Bool) : String :=
  if is_qualifiable symbol then
    if invocation && env.envKeys.contains "_macro_"
        && env.macroAttrs.contains symbol then
      env.qualname ++ ".._macro_." ++ symbol  -- Known macro.
    else if env.builtinsDir.contains symbol
        && !(env.envKeys.contains (rootName symbol)) then
      "builtins.." ++ symbol  -- Known builtin, not shadowed (yet).
    else if invocation && !(symbol.data.contains '.') then
      env.qualname ++ "..QzMaybe_." ++ symbol  -- Could be a recursive macro.
    else
      env.qualname ++ ".." ++ symbol
  else symbol

/-! ## The Hissp data model

A Hissp value is an atom or a non-empty tuple of Hissp values.  The
modelled atom domain covers the literal kinds the verified claims
quantify over (strings, integers, booleans, `None`, `Ellipsis`), plus
the reader-internal `_Unquote` marker (a `namedtuple`, hence not a
`tuple` for `is_node`).  `FList` is the tuple spine (a mutual inductive
so equality and recursion stay structural). -/

mutual
inductive Form
  | str (s : String)
  | int (n : Int)
  | bool (b : Bool)
  | pyNone
  | ellip
  | unq (target : String) (value : Form)
  | tup (xs : FList)
  deriving DecidableEq, Repr
inductive FList
  | nil
  | cons (x : Form) (xs : FList)
  deriving DecidableEq, Repr
end

def FList.ofList : List Form → FList
  | [] => .nil
  | x :: xs => .cons x (FList.ofList xs)

def FList.toList : FList → List Form
  | .nil => []
  | .cons x xs => x :: xs.toList

/-- `is_node`: a non-empty `tuple` (the `_Unquote` marker is a
`namedtuple`, a different type, hence an atom here as in the source). -/
def is_node : Form → Bool
  | .tup (.cons _ _) => true
  | _ => false

/-- `is_str`: exactly the `str` atoms. -/
def is_str : Form → Bool
  | .str _ => true
  | _ => false

/-- Model of `str.startswith` on a single-character pattern (the only
uses the claims need), kept kernel-computable. -/
def strStarts (s : String) (c : Char) : Bool := s.data.head? == some c

/-- `is_control`: a `str` atom beginning with `:`. -/
def is_control : Form → Bool
  | .str s => strStarts s ':'
  | _ => false

/-! ## Macro resolution and expansion (`src/hissp/compiler.py`)

`Compiler.get_macro` / `_get_macro` / `_qualified_macro` /
`_unqualified_macro`, and the `macroexpand1` / `macroexpand` utilities.

The compile-time environment is modelled by the facts those functions
consult: `__name__`, the `_macro_` namespace (an association list of
attribute names to macro functions; `none` when the key is absent), and
the importable modules' `_macro_` namespaces for the qualified `eval`
path.  Macro functions are total Lean functions on the argument spine
(macros raising, and dotted attribute chains after `_macro_.`, are
outside the modelled domain).  Python's object-identity loop test
`expanded is form` is modelled by structural equality. -/

def MacFn : Type := FList → Form

structure MEnv where
  nameVal : Option String
  macs : Option (List (String × MacFn))
  modules : List (String × List (String × MacFn))

/-- Errors `_qualified_macro` can raise: an uncaught
`LookupError`/`AttributeError` on a hard (non-`QzMaybe_`) qualified
macro, or an uncaught `ImportError` from the `eval` path. -/
inductive MacErr
  | lookup
  | importErr
  deriving DecidableEq, Repr

def MACRO_SEP : String := ".._macro_."

def MAYBE_SEP : String := "..QzMaybe_."

/-- `RE_MACRO.split(head, 1)`: split on the leftmost occurrence of
`.._macro_.` or `..QzMaybe_.` (at any given position at most one of the
two literals can match). -/
def splitMacSep : List Char → Option (List Char × String × List Char)
  | [] => none
  | c :: cs =>
    if MACRO_SEP.data.isPrefixOf (c :: cs) then
      some ([], MACRO_SEP, (c :: cs).drop MACRO_SEP.length)
    else if MAYBE_SEP.data.isPrefixOf (c :: cs) then
      some ([], MAYBE_SEP, (c :: cs).drop MAYBE_SEP.length)
    else
      match splitMacSep cs with
      | some (pre, sep, post) => some (c :: pre, sep, post)
      | none => none

/-- Python's `str.replace(pat, rep, 1)` for a non-empty pattern. -/
def replaceFirst (pat rep : List Char) : List Char → List Char
  | [] => []
  | c :: cs =>
    if pat.isPrefixOf (c :: cs) then rep ++ (c :: cs).drop pat.length
    else c :: replaceFirst pat rep cs

def envQualname (env : MEnv) : String := env.nameVal.getD "__main__"

/-- `Compiler._qualified_macro`: resolve a module-qualified macro head.
Internal heads read the environment's own `_macro_` namespace; foreign
heads import the module (an import failure always propagates) and walk
to its `_macro_` attribute.  Lookup and attribute failures are
swallowed only for tentative (`..QzMaybe_.`) heads. -/
def qualified_mac (env : MEnv) (pre sep post : String) :
    Except MacErr (Option MacFn) :=
  if pre = envQualname env then
    match env.macs with
    | some attrs =>
      match attrs.lookup post with
      | some m => .ok (some m)
      | none => if sep ≠ MAYBE_SEP then .error .lookup else .ok none
    | none => if sep ≠ MAYBE_SEP then .error .lookup else .ok none
  else
    match env.modules.lookup pre with
    | none => .error .importErr
    | some attrs =>
      match attrs.lookup post with
      | some m => .ok (some m)
      | none => if sep ≠ MAYBE_SEP then .error .lookup else .ok none

/-- `Compiler._unqualified_macro`: an attribute of the environment's
`_macro_` namespace, with lookup failures swallowed. -/
def unqualified_mac (env : MEnv) (head : String) : Option MacFn :=
  match env.macs with
  | some attrs => attrs.lookup head
  | none => none

/-- `Compiler._get_macro`. -/
def get_mac (env : MEnv) (head : String) : Except MacErr (Option MacFn) :=
  match splitMacSep head.data with
  | some (pre, sep, post) =>
    qualified_mac env (String.mk pre) sep (String.mk post)
  | none => .ok (unqualified_mac env head)

/-- `Compiler.get_macro`: `None` for non-`str` heads and control words,
else `_get_macro`. -/
def get_macro_fn (env : MEnv) (symbol : Form) : Except MacErr (Option MacFn) :=
  match symbol with
  | .str s => if strStarts s ':' then .ok none else get_mac env s
  | _ => .ok none

/-- `macroexpand1`: expand the outermost form once.  Non-nodes and
forms headed by `quote` or `lambda` come back unaltered before any
macro lookup happens. -/
def macroexpand1F (env : MEnv) (form : Form) : Except MacErr Form :=
  match form with
  | .tup (.cons h t) =>
    if h = .str "quote" ∨ h = .str "lambda" then .ok form
    else
      match get_macro_fn env h with
      | .error e => .error e
      | .ok none => .ok form
      | .ok (some m) => .ok (m t)
  | _ => .ok form

/-- `macroexpand`: repeat `macroexpand1` until a fixed point (the
source compares with `is`; pure macros make that structural equality).
The fuel bounds the number of expansion steps; `none` models the
non-terminating loop. -/
def macroexpandF (env : MEnv) (pre : Form → Form) :
    Nat → Form → Except MacErr (Option Form)
  | 0, _ => .ok none
  | n + 1, form =>
    let form := pre form
    match macroexpand1F env form with
    | .error e => .error e
    | .ok expanded =>
      if expanded = form then .ok (some form)
      else macroexpandF env pre n expanded

/-- A concrete macro environment: `m` expands to its first argument. -/
def mEnvIdFirst : MEnv :=
  ⟨some "__main__",
   some [("m", fun args => match args with | .cons a _ => a | .nil => .pyNone)],
   []⟩

/-- A macro environment binding macros named `quote` and `lambda`. -/
def mEnvShadow : MEnv :=
  ⟨some "__main__",
   some [("quote", fun _ => .pyNone), ("lambda", fun _ => .pyNone)],
   []⟩

/-! ## Paren structure in the reader (`Parser._parse` / `_open` /
`_close` / `_check_depth`)

The token alphabet is restricted to what the claim concerns: opens,
closes, and already-parsed atoms.  The parser state mirrors the source:
`Parser.depth` is the stack of open-paren positions (paired here with
each suspended tuple accumulation, which the source keeps in the
suspended recursive generator frames).  `_close` on an empty depth
raises a hard `SyntaxError`; exhausting the tokens with a non-empty
depth raises `SoftSyntaxError` at the most recent open
(`self.depth.pop()`). -/

inductive Tok
  | lpar
  | rpar
  | bare (f : Form)
  deriving DecidableEq, Repr

inductive ReadRes
  | ok (forms : List Form)
  | hard (pos : Nat)
  | soft (pos : Nat)
  deriving DecidableEq, Repr

def readToks : List Tok → List (Nat × List Form) → List Form → Nat → ReadRes
  | [], [], acc, _ => .ok acc.reverse
  | [], (p, _) :: _, _, _ => .soft p
  | .lpar :: ts, st, acc, i => readToks ts ((i, acc) :: st) [] (i + 1)
  | .rpar :: _, [], _, i => .hard i
  | .rpar :: ts, (_, sacc) :: st, acc, i =>
    readToks ts st (.tup (FList.ofList acc.reverse) :: sacc) (i + 1)
  | .bare f :: ts, st, acc, i => readToks ts st (f :: acc) (i + 1)

/-- Read a whole token stream from the top level. -/
def readLissp (ts : List Tok) : ReadRes := readToks ts [] [] 0

/-- Whether some prefix of the stream closes more parens than it opens,
starting from `d` already-open parens: the "`)` with no matching `(`"
condition of the claim. -/
def extraClose : List Tok → Nat → Bool
  | [], _ => false
  | .lpar :: ts, d => extraClose ts (d + 1)
  | .rpar :: ts, d => d == 0 || extraClose ts (d - 1)
  | .bare _ :: ts, d => extraClose ts d

/-- The number of parens still open after the stream, starting from `d`
already open (meaningful when `extraClose` is false). -/
def openDepth : List Tok → Nat → Nat
  | [], d => d
  | .lpar :: ts, d => openDepth ts (d + 1)
  | .rpar :: ts, d => openDepth ts (d - 1)
  | .bare _ :: ts, d => openDepth ts d

/-! ## Atom emission and `ast.literal_eval` (`Compiler.atomic`)

`Compiler.atomic` emits a literal when it round-trips through
`ast.literal_eval`, else falls back to pickle.  The modelled atom
domain is the literal fragment of the claims: strings of printable
ASCII whose `repr` fits `pprint`'s width, integers, booleans, `None`,
`Ellipsis` and tuples thereof.  `dict`/`list`/`set` literals and the
pickle payload (host serialization) are outside the model; the pickle
fallback is a placeholder proved unreachable on the modelled domain. -/

def natDecimalGo : Nat → Nat → List Char
  | 0, n => [Char.ofNat (48 + n % 10)]
  | f + 1, n =>
    if n < 10 then [Char.ofNat (48 + n)]
    else natDecimalGo f (n / 10) ++ [Char.ofNat (48 + n % 10)]

/-- Decimal digits of a natural number (`repr` of a non-negative int). -/
def natDecimal (n : Nat) : List Char := natDecimalGo n n

/-- Python's `repr` of an int. -/
def intRepr : Int → List Char
  | .ofNat n => natDecimal n
  | .negSucc m => '-' :: natDecimal (m + 1)

/-- Printable ASCII (space through tilde): the string-atom character
domain of the claims.  Within it, Python's `repr` escapes only `\` and
the delimiting quote. -/
def printableAscii (c : Char) : Bool := 32 ≤ c.toNat && c.toNat ≤ 126

def escSq (l : List Char) : List Char :=
  (l.map fun c =>
    if c = '\\' then ['\\', '\\']
    else if c = '\'' then ['\\', '\''] else [c]).flatten

def escDq (l : List Char) : List Char :=
  (l.map fun c => if c = '\\' then ['\\', '\\'] else [c]).flatten

/-- Python's `repr` of a printable-ASCII string: single quotes by
default; double quotes when the string contains `'` but no `"`. -/
def pyReprStr (l : List Char) : List Char :=
  if l.contains '\'' && !(l.contains '"') then '"' :: (escDq l ++ ['"'])
  else '\'' :: (escSq l ++ ['\''])

/-- `Compiler._format_repr`: ints (with `float`/`complex` outside the
modelled domain) are parenthesized; other atoms print via `pformat`,
which within this domain is `repr`.  The `_Unquote` marker's repr is a
`namedtuple` rendering that `ast.literal_eval` rejects (sending
`atomic` to the pickle fallback); only its non-parseability is
modelled. -/
def format_repr : Form → List Char
  | .int n => '(' :: (intRepr n ++ [')'])
  | .str s => pyReprStr s.data
  | .bool b => if b then "True".data else "False".data
  | .pyNone => "None".data
  | .tup _ => "()".data
  | .ellip => "Ellipsis".data
  | .unq _ _ => "_Unquote(...)".data

def isWs (c : Char) : Bool := c = ' ' || c = '\n'

/-- Undo the string escapes `pyReprStr` can emit. -/
def unesc (c : Char) : Char := if c = 'n' then '\n' else c

/-- Parse a Python string-literal body up to the closing quote `q`. -/
def parseStrBody (q : Char) : List Char → Option (List Char × List Char)
  | [] => none
  | c :: rest =>
    if c = '\\' then
      match rest with
      | [] => none
      | e :: rest2 =>
        match parseStrBody q rest2 with
        | some (s, r) => some (unesc e :: s, r)
        | none => none
    else if c = q then some ([], rest)
    else
      match parseStrBody q rest with
      | some (s, r) => some (c :: s, r)
      | none => none

def digitsVal (l : List Char) : Nat :=
  l.foldl (fun a c => 10 * a + (c.toNat - 48)) 0

/-! `parseVal` models `ast.literal_eval` restricted to the grammar
`atomic` emits: keywords, (possibly parenthesized and signed) decimal
integers, string literals, and tuple displays with trailing commas,
with whitespace as `pprint` inserts it.  Fuelled; each recursive call
consumes at least one input character. -/
mutual
def parseVal : Nat → List Char → Option (Form × List Char)
  | 0, _ => none
  | fuel + 1, l =>
    match l.dropWhile isWs with
    | [] => none
    | c :: rest =>
      if c = '(' then
        match rest.dropWhile isWs with
        | [] => none
        | c2 :: r2 =>
          if c2 = ')' then some (.tup .nil, r2)
          else
            match parseVal fuel (c2 :: r2) with
            | none => none
            | some (v, r3) =>
              match r3.dropWhile isWs with
              | [] => none
              | c4 :: r4 =>
                if c4 = ')' then some (v, r4)
                else if c4 = ',' then parseTupleRest fuel [v] r4
                else none
      else if c = '\'' then
        match parseStrBody '\'' rest with
        | some (s, r) => some (.str (String.mk s), r)
        | none => none
      else if c = '"' then
        match parseStrBody '"' rest with
        | some (s, r) => some (.str (String.mk s), r)
        | none => none
      else if c = '-' then
        match rest.takeWhile isAsciiDigit with
        | [] => none
        | ds => some (.int (-(digitsVal ds : Int)), rest.dropWhile isAsciiDigit)
      else if isAsciiDigit c then
        some (.int (digitsVal (c :: rest.takeWhile isAsciiDigit)),
          rest.dropWhile isAsciiDigit)
      else if c = 'N' then
        match rest with
        | 'o' :: 'n' :: 'e' :: r => some (.pyNone, r)
        | _ => none
      else if c = 'T' then
        match rest with
        | 'r' :: 'u' :: 'e' :: r => some (.bool true, r)
        | _ => none
      else if c = 'F' then
        match rest with
        | 'a' :: 'l' :: 's' :: 'e' :: r => some (.bool false, r)
        | _ => none
      else if c = '.' then
        match rest with
        | '.' :: '.' :: r => some (.ellip, r)
        | _ => none
      else none
def parseTupleRest : Nat → List Form → List Char → Option (Form × List Char)
  | 0, _, _ => none
  | fuel + 1, acc, l =>
    match l.dropWhile isWs with
    | [] => none
    | c :: r =>
      if c = ')' then some (.tup (FList.ofList acc.reverse), r)
      else
        match parseVal fuel (c :: r) with
        | some (v, r2) =>
          (match r2.dropWhile isWs with
           | [] => none
           | c3 :: r3 =>
             if c3 = ',' then parseTupleRest fuel (v :: acc) r3
             else none)
        | none => none
end

/-- `ast.literal_eval` of a whole string (trailing whitespace allowed,
as Python's parser ignores it). -/
def tryEval (l : List Char) : Option Form :=
  match parseVal (l.length + 1) l with
  | some (v, r) => if r.dropWhile isWs = [] then some v else none
  | none => none

/-- Join string pieces with a separator (`sep.join`). -/
def joinSep (sep : List Char) : List (List Char) → List Char
  | [] => []
  | [x] => x
  | x :: xs => x ++ (sep ++ joinSep sep xs)

/-- The indentation step `.replace("\n", "\n ")`. -/
def padNl (l : List Char) : List Char :=
  (l.map fun c => if c = '\n' then ['\n', ' '] else [c]).flatten

/-- `Compiler._lisp_normal_form`'s formatting step:
`"({},)".format(",\n".join(pieces).replace("\n", "\n "))`. -/
def lispNormal (pieces : List (List Char)) : List Char :=
  '(' :: (padNl (joinSep [',', '\n'] pieces) ++ [',', ')'])

/-- Placeholder for the `pickle.loads` fallback; the payload is host
serialization and is not modelled.  The claims prove this branch is
never taken on the modelled literal domain. -/
def pickleExpr (_f : Form) : List Char :=
  "__import__('pickle').loads(b'')".data

/-! `atomicS` models `Compiler.atomic`: `Ellipsis` and non-empty tuples
(Lisp-normal form over recursive atom emission) first, then the scalar
path, which emits `_format_repr` if it round-trips through
`ast.literal_eval` and otherwise falls back to pickle. -/
mutual
def atomicS : Form → List Char
  | .ellip => "...".data
  | .tup (.cons x xs) => lispNormal (atomicListS (.cons x xs))
  | f =>
    let lit := format_repr f
    if tryEval lit == some f then lit else pickleExpr f
def atomicListS : FList → List (List Char)
  | .nil => []
  | .cons x xs => atomicS x :: atomicListS xs
end

/-! `pyOk` delimits the modelled literal domain: strings of printable
ASCII whose `repr` stays within `pprint`'s 80-column width (longer
reprs get wrapped by `pprint`, which is not modelled), and tuples of
such atoms.  The reader-internal `_Unquote` marker is not literal. -/
mutual
def pyOk : Form → Bool
  | .str s =>
    s.data.all printableAscii && decide ((pyReprStr s.data).length ≤ 80)
  | .int _ => true
  | .bool _ => true
  | .pyNone => true
  | .ellip => true
  | .unq _ _ => false
  | .tup xs => pyOkList xs
def pyOkList : FList → Bool
  | .nil => true
  | .cons x xs => pyOk x && pyOkList xs
end

/-! ### Round-trip: `ast.literal_eval (atomic v) = v` on the modelled
literal domain.

`pprint`'s nesting indentation is the repeated substitution
`.replace("\n", "\n ")`; `padK k` is its `k`-fold composition, and the
parser is insensitive to it because it only adds blanks after newlines,
which occur only at element separators. -/

def spaces (k : Nat) : List Char := List.replicate k ' '

/-- Add `k` spaces after every newline (the `k`-fold composition of
`padNl`). -/
def padK (k : Nat) (l : List Char) : List Char :=
  (l.map fun c => if c = '\n' then '\n' :: spaces k else [c]).flatten

/-- The scalar atoms: everything `atomic` sends through the
`_format_repr` / round-trip-check path. -/
def isScalar : Form → Bool
  | .ellip => false
  | .tup (.cons _ _) => false
  | .unq _ _ => false
  | _ => true

/-! Fuel accounting for the parser: `pfuel` bounds the number of
`parseVal`/`parseTupleRest` calls needed to read an atom emission. -/

mutual
def pfuel : Form → Nat
  | .tup (.cons x xs) => 1 + pfuel x + pfuelList xs
  | _ => 2
def pfuelList : FList → Nat
  | .nil => 1
  | .cons x xs => 1 + pfuel x + pfuelList xs
end

/-- The text a `parseTupleRest` invocation sees after each consumed
comma while reading a padded Lisp-normal form: the remaining elements
(each preceded by the separator newline and indent, followed by its
comma), then the closing paren. -/
def tupTail (k : Nat) (rest : List Char) : FList → List Char
  | .nil => ')' :: rest
  | .cons y ys =>
    '\n' :: (spaces (k + 1) ++ (padK (k + 1) (atomicS y) ++ ',' :: tupTail k rest ys))

/-! ## The emitter pipeline (`src/hissp/compiler.py`)

String-building model of `Compiler.compile_form` and the methods it
dispatches to: `tuple_`, `special`, `lambda_`, `parameters`, `body`,
`invocation`, `call`, `fragment` and helpers.  Emitted code is a
`List Char`; errors (`CompileError`, uncaught `TypeError`-family
crashes, macro-resolution failures) live in `Except`.  Recursion is
fueled: each entry into `compile_form` consumes one unit. -/

/-! Python's `repr` on the modelled form domain (tuples spelled with
`, ` separators and a trailing comma only for singletons, the
`_Unquote` namedtuple rendering for the reader-internal marker). -/
mutual
def pyRepr : Form → List Char
  | .str s => pyReprStr s.data
  | .int n => intRepr n
  | .bool b => if b then "True".data else "False".data
  | .pyNone => "None".data
  | .ellip => "Ellipsis".data
  | .unq t v =>
    "_Unquote(target=".data ++ pyReprStr t.data ++ ", value=".data ++
      pyRepr v ++ [')']
  | .tup .nil => "()".data
  | .tup (.cons x .nil) => '(' :: (pyRepr x ++ ",)".data)
  | .tup (.cons x (.cons y ys)) =>
    '(' :: (pyRepr x ++ pyReprTail (.cons y ys) ++ [')'])
def pyReprTail : FList → List Char
  | .nil => []
  | .cons x xs => ", ".data ++ pyRepr x ++ pyReprTail xs
end

/-- Python's `str()` (f-string interpolation): identity on `str`,
`repr` otherwise (no modelled form overrides `__str__`). -/
def pyStr : Form → List Char
  | .str s => s.data
  | f => pyRepr f

/-- Substring membership (Python's `in` on strings). -/
def isSub (p : List Char) : List Char → Bool
  | [] => p.isPrefixOf []
  | c :: cs => p.isPrefixOf (c :: cs) || isSub p cs

/-- `str.replace("\n", "\n" + pad)`. -/
def replNl (pad : List Char) (l : List Char) : List Char :=
  (l.map fun c => if c = '\n' then '\n' :: pad else [c]).flatten

/-- `str.split("..", 1)`: split on the leftmost `..`, if any. -/
def splitOnceDD : List Char → Option (List Char × List Char)
  | [] => none
  | c :: cs =>
    if ['.', '.'].isPrefixOf (c :: cs) then some ([], cs.drop 1)
    else
      match splitOnceDD cs with
      | some (a, b) => some (c :: a, b)
      | none => none

/-- `str.split(".", 1)`. -/
def splitDotOnce : List Char → List Char × Option (List Char)
  | [] => ([], none)
  | c :: cs =>
    if c = '.' then ([], some cs)
    else
      match splitDotOnce cs with
      | (a, b) => (c :: a, b)

/-- `Compiler.module_identifier`: compile a module handle to an
`__import__` expression. -/
def module_identifier (code : List Char) : List Char :=
  let m := code.dropLast
  "__import__(".data ++ pyReprStr m ++
    (if m.contains '.' then ",fromlist='*'".data else []) ++ [')']

/-- `Compiler.qualified_identifier`: compile a fully-qualified
identifier to an import (or a shadow-proof `globals()` access when
the qualifier names the current module). -/
def qualified_identifier (qualname : String) (code : List Char) :
    List Char :=
  match splitOnceDD code with
  | none => code
  | some (p0, p1) =>
    if p0 = qualname.data then
      match splitDotOnce p1 with
      | (c0, none) =>
        "__import__('builtins').globals()[".data ++ pyReprStr c0 ++ [']']
      | (c0, some c1) =>
        "__import__('builtins').globals()[".data ++ pyReprStr c0 ++
          "].".data ++ c1
    else
      "__import__(".data ++ pyReprStr p0 ++
        (if p0.contains '.' then ",fromlist='*'".data else []) ++
        ").".data ++ p1

/-- `Compiler._fragment`: rewrite fully-qualified identifiers and
module handles into imports; anything else passes through as Python
code. -/
def fragmentC (qualname : String) (code : List Char) : List Char :=
  if isSub "...".data code then code
  else if !((splitDot code).all fun s => s.isEmpty || pyIsIdent s) then code
  else if isSub ['.', '.'] code then qualified_identifier qualname code
  else if code.getLast? = some '.' then module_identifier code
  else code

/-- Compile-time crash modes: `CompileError` for an incomplete
argument pair or an unpaired method self; `typeErr` stands for the
uncaught `TypeError`/`ValueError`/`IndexError` crashes of the source
(bad arity, `str` operations on non-strings, unpacking failures);
`macroErr` wraps macro-resolution failures; `fuelOut` is the fuel
bound (no Python counterpart; enough fuel always exists). -/
inductive CErr
  | pair
  | selfPair
  | typeErr
  | macroErr (e : MacErr)
  | fuelOut
  deriving DecidableEq, Repr

/-- The compiler instance state the modelled methods consult. -/
structure Comp where
  qualname : String
  env : MEnv

/-- `iter()` on a form: tuples yield their elements, strings their
characters (as 1-character strings); other modelled atoms are not
iterable. -/
def iterF : Form → Except CErr FList
  | .tup xs => .ok xs
  | .str s =>
    .ok (FList.ofList (s.data.map fun c => Form.str (String.mk [c])))
  | _ => .error .typeErr

/-- `takewhile(lambda a: a != ":", it)` over a shared iterator: the
elements before the first `:` (which is consumed and dropped), and
the rest. -/
def takeUntilColon : FList → List Form × FList
  | .nil => ([], .nil)
  | .cons a rest =>
    if a = .str ":" then ([], rest)
    else
      match takeUntilColon rest with
      | (xs, r) => (a :: xs, r)

/-- `[*_pairs(it)]`: adjacent pairs, `CompileError` on a leftover. -/
def pairsOf : FList → Except CErr (List (Form × Form))
  | .nil => .ok []
  | .cons _ .nil => .error .pair
  | .cons k (.cons v rest) =>
    match pairsOf rest with
    | .ok ps => .ok ((k, v) :: ps)
    | .error e => .error e

/-- Sequential `map` over `compile_form`-style recursion. -/
def mapExcept (f : Form → Except CErr (List Char)) :
    List Form → Except CErr (List (List Char))
  | [] => .ok []
  | x :: xs =>
    match f x with
    | .ok c =>
      match mapExcept f xs with
      | .ok cs => .ok (c :: cs)
      | .error e => .error e
    | .error e => .error e

/-- An entry of `Compiler.parameters`' `r` list: either an unconverted
form (whose `str`-ness `sep.join` checks only at the end) or text. -/
inductive PEntry
  | raw (f : Form)
  | txt (t : List Char)

/-- `sep.join` element check: raw entries must be `str` atoms. -/
def peText : PEntry → Except CErr (List Char)
  | .raw (.str s) => .ok s.data
  | .raw _ => .error .typeErr
  | .txt t => .ok t

def peTexts : List PEntry → Except CErr (List (List Char))
  | [] => .ok []
  | e :: es =>
    match peText e with
    | .ok t =>
      match peTexts es with
      | .ok ts => .ok (t :: ts)
      | .error er => .error er
    | .error er => .error er

/-- The `_pairs` loop of `Compiler.parameters`: per-pair entries plus
the `sep` switch to `,\n` (set when any default value compiles). -/
def pairEntries (recur : Form → Except CErr (List Char)) :
    FList → Except CErr (List PEntry × Bool)
  | .nil => .ok ([], false)
  | .cons _ .nil => .error .pair
  | .cons k (.cons v rest) =>
    if k = .str ":*" then
      match pairEntries recur rest with
      | .ok (es, b) =>
        .ok ((if v = .str ":?" then PEntry.txt "*".data
          else PEntry.txt ('*' :: pyStr v)) :: es, b)
      | .error e => .error e
    else if k = .str ":/" then
      match pairEntries recur rest with
      | .ok (es, b) => .ok (PEntry.txt "/".data :: es, b)
      | .error e => .error e
    else if k = .str ":**" then
      match pairEntries recur rest with
      | .ok (es, b) => .ok (PEntry.txt ("**".data ++ pyStr v) :: es, b)
      | .error e => .error e
    else if v = .str ":?" then
      match pairEntries recur rest with
      | .ok (es, b) => .ok (PEntry.raw k :: es, b)
      | .error e => .error e
    else
      match recur v with
      | .ok c =>
        match pairEntries recur rest with
        | .ok (es, _) => .ok (PEntry.txt (pyStr k ++ '=' :: c) :: es, true)
        | .error e => .error e
      | .error e => .error e

/-- `Compiler.parameters`: singles (with `:/` and `:*` spelled `/` and
`*`) up to `:`, then the pair loop, joined and re-indented under the
8-column `(lambda ` header. -/
def parametersC (recur : Form → Except CErr (List Char)) (ps : FList) :
    Except CErr (List Char) :=
  match takeUntilColon ps with
  | (sing, rest) =>
    let s0 : List PEntry := sing.map fun a =>
      match a with
      | .str s =>
        if s = ":/" then .txt "/".data
        else if s = ":*" then .txt "*".data
        else .raw (.str s)
      | f => .raw f
    match pairEntries recur rest with
    | .ok (es, dflt) =>
      match peTexts (s0 ++ es) with
      | .ok parts =>
        .ok (replNl (spaces 8)
          (joinSep (if dflt then ",\n".data else ", ".data) parts))
      | .error e => .error e
    | .error e => .error e

/-- `Compiler.body`: compile each body form; multiple forms become a
`(...)  [-1]` sequence, none become `()`. -/
def bodyC (recur : Form → Except CErr (List Char)) (body : List Form) :
    Except CErr (List Char) :=
  match mapExcept recur body with
  | .ok [] => .ok "()".data
  | .ok [c] => .ok c
  | .ok cs => .ok ('(' :: (padNl (joinSep [',', '\n'] cs) ++ ")  [-1]".data))
  | .error e => .error e

/-- `Compiler.lambda_` on the full form (head included): compile
parameters then body, then assemble with the newline-dependent
spacing of the f-string. -/
def lambdaC (recur : Form → Except CErr (List Char)) (form : FList) :
    Except CErr (List Char) :=
  match form with
  | .cons _ (.cons params bodyr) =>
    let body := bodyr.toList
    let sep : List Char := if body.length ≤ 1 then " ".data else []
    match iterF params with
    | .error e => .error e
    | .ok pl =>
      match parametersC recur pl with
      | .error e => .error e
      | .ok ps =>
        match bodyC recur body with
        | .error e => .error e
        | .ok bd =>
          let pNl := ps.contains '\n'
          let bNl := bd.contains '\n'
          let bgn : List Char := if pNl then "\n ".data else []
          let endS : List Char := if bNl then "\n".data else []
          let mid : List Char :=
            if bNl || pNl then '\n' :: "   ".data else []
          .ok ('(' :: (bgn ++ "lambda ".data ++ ps ++ ':' ::
            (mid ++ sep ++ replNl ("   ".data ++ sep) bd ++ endS ++ [')'])))
  | _ => .error .typeErr

/-- `PAIR_WORDS.get(k, k + "=")` for `Compiler._pair_arg`. -/
def pairArgKey : Form → Except CErr (List Char)
  | .str s =>
    .ok (if s = ":*" then "*".data
      else if s = ":**" then "**".data
      else if s = ":?" then []
      else s.data ++ ['='])
  | _ => .error .typeErr

/-- `Compiler._pair_arg`: keyword (or unpacking star) target, then the
compiled value indented under the target's width. -/
def pairArg (recur : Form → Except CErr (List Char)) (k v : Form) :
    Except CErr (List Char) :=
  match pairArgKey k with
  | .error e => .error e
  | .ok k0 =>
    let k1 := if isSub ['.', '.'] k0 then
        ((splitDot k0).getLast?).getD []
      else k0
    match recur v with
    | .error e => .error e
    | .ok c => .ok (k1 ++ replNl (spaces k1.length) c)

def pairArgsC (recur : Form → Except CErr (List Char)) :
    List (Form × Form) → Except CErr (List (List Char))
  | [] => .ok []
  | (k, v) :: rest =>
    match pairArg recur k v with
    | .ok a =>
      match pairArgsC recur rest with
      | .ok rs => .ok (a :: rs)
      | .error e => .error e
    | .error e => .error e

/-- `_join_args`: newline-lead, comma-separated, 2-space indented. -/
def joinArgs : List (List Char) → List Char
  | [] => []
  | args => replNl "  ".data ('\n' :: joinSep [',', '\n'] args)

/-- `Compiler.call`: compile singles, materialize pairs, then either
the method-call or plain-call rendering. -/
def callC (recur : Form → Except CErr (List Char)) (h : Form)
    (t : FList) : Except CErr (List Char) :=
  match takeUntilColon t with
  | (sing, rest) =>
    match mapExcept recur sing with
    | .error e => .error e
    | .ok singsC =>
      match pairsOf rest with
      | .error e => .error e
      | .ok prs =>
        match h with
        | .str s =>
          if strStarts s '.' then
            if (if sing.isEmpty then
                match prs with
                | [] => none
                | (k, _) :: _ => if k = .str ":?" then some true else some false
              else some true) = some true then
              match pairArgsC recur prs with
              | .error e => .error e
              | .ok pas =>
                match singsC ++ pas with
                | a1 :: restA =>
                  .ok (a1 ++ '.' :: (s.data.drop 1 ++ '(' ::
                    (joinArgs restA ++ [')'])))
                | [] => .error .typeErr
            else
              match (if sing.isEmpty then
                  match prs with
                  | [] => none
                  | (k, _) :: _ =>
                    if k = .str ":?" then some true else some false
                else some true) with
              | none => .error .typeErr
              | _ => .error .selfPair
          else
            match recur h with
            | .error e => .error e
            | .ok hc =>
              match pairArgsC recur prs with
              | .error e => .error e
              | .ok pas =>
                .ok (hc ++ '(' :: (joinArgs (singsC ++ pas) ++ [')']))
        | _ =>
          match recur h with
          | .error e => .error e
          | .ok hc =>
            match pairArgsC recur prs with
            | .error e => .error e
            | .ok pas =>
              .ok (hc ++ '(' :: (joinArgs (singsC ++ pas) ++ [')']))

/-- `Compiler.invocation`: macro-expand-and-recompile with the `# `
comment header (abbreviated on direct recursion), else retry as a
call with a tentative `..QzMaybe_.` collapsed to `..`. -/
def invocationC (C : Comp) (recur : Form → Except CErr (List Char))
    (s : String) (t : FList) : Except CErr (List Char) :=
  match get_mac C.env s with
  | .error e => .error (.macroErr e)
  | .ok (some m) =>
    match recur (m t) with
    | .error e => .error e
    | .ok res =>
      .ok (if res.head? == some '#' &&
          (' ' :: (s.data ++ ['\n'])).isPrefixOf
            (res.dropWhile fun c => c = '#')
        then '#' :: res
        else '#' :: ' ' :: (s.data ++ '\n' :: res))
  | .ok none =>
    callC recur
      (.str (String.mk (replaceFirst MAYBE_SEP.data "..".data s.data))) t

/-- `Compiler.special`: `quote` emits its sole payload as an atom
(wrong arity is the `atomic(*form[1:])` `TypeError`), `lambda`
compiles the function, anything else is an invocation. -/
def specialC (C : Comp) (recur : Form → Except CErr (List Char))
    (h : Form) (t : FList) : Except CErr (List Char) :=
  if h = .str "quote" then
    match t with
    | .cons x .nil => .ok (atomicS x)
    | _ => .error .typeErr
  else if h = .str "lambda" then lambdaC recur (.cons h t)
  else
    match h with
    | .str s => invocationC C recur s t
    | _ => .error .typeErr

/-- `Compiler.tuple_`: the one-element `((lambda ...))` progn
optimization (when the inner parameters compile to the empty string),
else `special` for `str` heads, else `call`. -/
def tupleC (C : Comp) (recur : Form → Except CErr (List Char))
    (h : Form) (t : FList) : Except CErr (List Char) :=
  match h, t with
  | .tup (.cons (.str "lambda") (.cons params bodyr)), .nil =>
    (match (match iterF params with
        | .ok pl => parametersC recur pl
        | .error e => .error e) with
     | .error e => .error e
     | .ok s =>
       if s = [] then bodyC recur bodyr.toList
       else callC recur
         (.tup (.cons (.str "lambda") (.cons params bodyr))) .nil)
  | _, _ =>
    if is_str h then specialC C recur h t else callC recur h t

/-- `Compiler.compile_form`, fueled: nonempty tuples dispatch to
`tuple_`, non-control `str` atoms to `fragment`, everything else
(including control words) to `atomic`. -/
def compileFormF : Nat → Comp → Form → Except CErr (List Char)
  | 0, _, _ => .error .fuelOut
  | f + 1, C, form =>
    match form with
    | .tup (.cons h t) => tupleC C (compileFormF f C) h t
    | .str s =>
      if strStarts s ':' then .ok (atomicS (.str s))
      else .ok (fragmentC C.qualname s.data)
    | other => .ok (atomicS other)

/-! ## Template processing (`src/hissp/reader.py`)

`Parser._template_form` / `_template_forms` over the `qualify`
environment model.  `is_lissp_unicode` gates on a leading `(` before
asking `ast.literal_eval` whether the form is a string literal.  The
only error is the `splice not in tuple` `SyntaxError`. -/

def is_string_literalF (s : String) : Bool :=
  match tryEval s.data with
  | some f => is_str f
  | none => false

def is_lissp_unicodeF : Form → Bool
  | .str s => strStarts s '(' && is_string_literalF s
  | _ => false

inductive TErr
  | splice
  deriving DecidableEq, Repr

mutual
def template_form (env : QEnv) : Form → Except TErr Form
  | .str s =>
    if is_lissp_unicodeF (.str s) then
      .ok (.tup (.cons (.str "quote") (.cons (.str s) .nil)))
    else if !(strStarts s ':') then
      .ok (.tup (.cons (.str "quote")
        (.cons (.str (qualify env s false)) .nil)))
    else .ok (.str s)
  | .tup (.cons a b) =>
    (match template_forms env true (.cons a b) with
     | .ok ps => .ok (.tup (FList.ofList
         (.str "" :: .str ":" :: (ps ++ [.str ":?", .str ""]))))
     | .error e => .error e)
  | .unq t v => if t = ":?" then .ok v else .error .splice
  | other => .ok other
def template_forms (env : QEnv) : Bool → FList → Except TErr (List Form)
  | _, .nil => .ok []
  | inv, .cons f rest =>
    match
      (match f with
       | .str s =>
         if !(strStarts s ':') then
           .ok [.str ":?", .tup (.cons (.str "quote")
             (.cons (.str (qualify env s inv)) .nil))]
         else .ok [.str ":?", .str s]
       | .unq t v => .ok [.str t, v]
       | .tup (.cons a b) =>
         match template_form env (.tup (.cons a b)) with
         | .ok x => .ok [.str ":?", x]
         | .error e => .error e
       | other => .ok [.str ":?", other] : Except TErr (List Form)),
      template_forms env false rest with
    | .ok h, .ok m => .ok (h ++ m)
    | .error e, _ => .error e
    | _, .error e => .error e
end

/-! ## Gensyms (`src/hissp/reader.py`)

`Parser.__init__` seeds a BLAKE2s hasher (`digest_size=5`, i.e. 40
bits) with the source text and the module `__name__`; `_gensym` copies
that base state (never mutating it), feeds it the big-endian bytes of
the counter `_get_counter` resolves from the context stacks, Base32-
encodes the digest in lowercase, and weaves the resulting
`_Qz<hash>__` into the form.  The hash function itself is an abstract
parameter `H` over the concatenated byte stream (BLAKE2s state after
updates `u₁, u₂, …` depends exactly on `u₁ ++ u₂ ++ …`); `digest_size=5`
becomes the hypothesis that `H` returns 5 bytes.  UTF-8 encoding of
ASCII text is the identity on code points. -/

def strBytes (s : String) : List Nat := s.data.map Char.toNat

/-- `int.bit_length()`. -/
def bitLen (n : Nat) : Nat := if n = 0 then 0 else Nat.log2 n + 1

/-- `c.to_bytes(len, "big")`. -/
def toBytesBig : Nat → Nat → List Nat
  | 0, _ => []
  | len + 1, n => (n / 256 ^ len % 256) :: toBytesBig len n

/-- The counter byte string `c.to_bytes(1 + c.bit_length() // 8, "big")`. -/
def counterBytes (c : Nat) : List Nat := toBytesBig (1 + bitLen c / 8) c

/-- `b32encode(...).lower()`'s alphabet. -/
def b32alpha : List Char := "abcdefghijklmnopqrstuvwxyz234567".data

def bytesVal : List Nat → Nat
  | [] => 0
  | b :: bs => b * 256 ^ bs.length + bytesVal bs

/-- `b32encode(digest).rstrip(b'=').lower().decode()` for the 5-byte
(40-bit) digests of `GENSYM_BYTES`: eight 5-bit groups, big-endian,
with no padding to strip. -/
def b32lower5 (bs : List Nat) : List Char :=
  if bs.length = 5 then
    (List.range 8).map fun i => b32alpha.getD (bytesVal bs / 2 ^ (35 - 5 * i) % 32) ' '
  else []

/-- `str.replace(pat, rep)` (all occurrences), for a non-empty `pat`. -/
def replaceAllGo : Nat → List Char → List Char → List Char → List Char
  | 0, _, _, l => l
  | fuel + 1, pat, rep, l =>
    match l with
    | [] => []
    | c :: cs =>
      if pat ≠ [] && pat.isPrefixOf (c :: cs) then
        rep ++ replaceAllGo fuel pat rep ((c :: cs).drop pat.length)
      else c :: replaceAllGo fuel pat rep cs

def replaceAll (pat rep l : List Char) : List Char :=
  replaceAllGo l.length pat rep l

/-- The context-stack entries: `'\x60'` for `gensym_context`
(templates) and `','` for `unquote_context`. -/
inductive CtxItem
  | tpl
  | unq
  deriving DecidableEq, Repr

/-- `Lissp._template_count` and the `Parser` gensym stacks. -/
structure LisspSt where
  templateCount : Nat

structure PState where
  counters : List Nat
  context : List CtxItem

/-- `gensym_context.__enter__`: push `template_count()` (which
increments first) and a template marker. -/
def enterTemplate (L : LisspSt) (st : PState) : LisspSt × PState :=
  (⟨L.templateCount + 1⟩,
   ⟨st.counters ++ [L.templateCount + 1], st.context ++ [.tpl]⟩)

/-- `gensym_context.__exit__`: pop both stacks. -/
def exitTemplate (st : PState) : PState :=
  ⟨st.counters.dropLast, st.context.dropLast⟩

/-- `Parser._get_counter`: the counter of the template the gensym
belongs to, a `SyntaxError` outside any template (and an uncaught
`IndexError` if the stacks desynchronize, which real runs never do). -/
def get_counter (st : PState) : Except Unit Nat :=
  let index : Int :=
    (st.context.count .tpl : Int) - (st.context.count .unq : Int)
  if st.context.isEmpty then .error ()
  else if index < 0 then .error ()
  else if st.context.getLast? = some .tpl then
    match st.counters.getLast? with
    | some c => .ok c
    | none => .error ()
  else
    match st.counters[index.toNat]? with
    | some c => .ok c
    | none => .error ()

/-- The pure name `_gensym` computes from the hash inputs (source
text, module name, counter) and the form text. -/
def gensymName (H : List Nat → List Nat) (code mname : String) (c : Nat)
    (form : String) : String :=
  let digest := H (strBytes code ++ strBytes mname ++ counterBytes c)
  let pre := "_Qz".data ++ (b32lower5 digest ++ "__".data)
  let marker := munge "$"
  if isSub marker.data form.data then
    String.mk (replaceAll marker.data pre form.data)
  else String.mk (pre ++ form.data)

/-- `Parser._gensym` as a step on the reader state: resolve the
counter, then compute the name; the state (including the base hasher,
which is only copied) is untouched. -/
def gensymStep (H : List Nat → List Nat) (code mname : String)
    (st : PState) (form : String) : Except Unit String :=
  match get_counter st with
  | .ok c => .ok (gensymName H code mname c form)
  | .error e => .error e

theorem dropWhile_len_le {α : Type} (p : α → Bool) (l : List α) :
    (l.dropWhile p).length ≤ l.length := by
  induction l with
  | nil => simp [List.dropWhile]
  | cons c cs ih =>
    simp only [List.dropWhile]
    by_cases hp : p c
    · simp only [hp]
      simp only [List.length_cons]
      omega
    · simp [hp]

theorem scanBody_length {l b r} (h : scanBody l = some (b, r)) :
    r.length < l.length := by
  match l with
  | [] => simp [scanBody] at h
  | c :: cs =>
    simp only [scanBody] at h
    by_cases hst : isBodyStart c
    · simp only [hst, if_true] at h
      rcases hdw : cs.dropWhile isBodyChar with _ | ⟨d, ds⟩ <;> rw [hdw] at h
      · exact absurd h (by simp)
      · by_cases hd : d = '_'
        · subst hd
          simp only [Option.some.injEq, Prod.mk.injEq] at h
          have hr : ds = r := h.2
          subst hr
          have h1 : (cs.dropWhile isBodyChar).length ≤ cs.length :=
            dropWhile_len_le isBodyChar cs
          rw [hdw] at h1
          simp only [List.length_cons] at h1 ⊢
          omega
        · exact absurd h (by simp [hd])
    · simp [hst] at h

theorem escCheck_ascii : ∀ n : Nat, n < 128 → escCheck (Char.ofNat n) = true := by decide

/-! Basic unfolding lemmas for `demungeGo`. -/

theorem demungeGo_nil (f : Nat) : demungeGo f [] = [] := by cases f <;> rfl

theorem demungeGo_qz (f : Nat) (rest : List Char) :
    demungeGo (f + 1) ('Q' :: 'z' :: rest) =
      (match scanBody rest with
       | some (body, rest') => qz_decode body ++ demungeGo f rest'
       | none => 'Q' :: demungeGo f ('z' :: rest)) := by
  simp only [demungeGo, List.head?_cons, List.tail_cons, and_self, if_pos]

theorem demungeGo_cons (f : Nat) (c : Char) (cs : List Char)
    (h : ¬(c = 'Q' ∧ cs.head? = some 'z')) :
    demungeGo (f + 1) (c :: cs) = c :: demungeGo f cs := by
  simp only [demungeGo, if_neg h]

theorem takeWhile_all_append {p : Char → Bool} {l : List Char} (b : Char)
    (m : List Char) (hl : l.all p = true) (hb : p b = false) :
    (l ++ b :: m).takeWhile p = l := by
  induction l with
  | nil => simp [List.takeWhile, hb]
  | cons c cs ih =>
    simp only [List.all_cons, Bool.and_eq_true] at hl
    simp [List.takeWhile, hl.1, ih hl.2]

theorem dropWhile_all_append {p : Char → Bool} {l : List Char} (b : Char)
    (m : List Char) (hl : l.all p = true) (hb : p b = false) :
    (l ++ b :: m).dropWhile p = b :: m := by
  induction l with
  | nil => simp [List.dropWhile, hb]
  | cons c cs ih =>
    simp only [List.all_cons, Bool.and_eq_true] at hl
    simp [List.dropWhile, hl.1, ih hl.2]

/-- A well-formed body followed by `_` is matched exactly, whatever
follows the underscore. -/
theorem scanBody_append {B : List Char} (M : List Char)
    (h : goodBody B = true) : scanBody (B ++ '_' :: M) = some (B, M) := by
  match B with
  | [] => simp [goodBody] at h
  | c :: cs =>
    simp only [goodBody, Bool.and_eq_true] at h
    have hb : isBodyChar '_' = false := by decide
    simp only [List.cons_append, scanBody, h.1, if_true]
    rw [dropWhile_all_append _ _ h.2 hb, takeWhile_all_append _ _ h.2 hb]
    rfl

theorem Inv.demungeGo_eq {M s : List Char} (h : Inv M s) :
    ∀ fuel, M.length ≤ fuel → demungeGo fuel M = s := by
  induction h with
  | nil => intro fuel _; exact demungeGo_nil fuel
  | keep hside _ ih =>
    intro fuel hf
    match fuel with
    | f + 1 =>
      rw [demungeGo_cons f _ _ hside]
      simp only [List.length_cons] at hf
      rw [ih f (by omega)]
  | @esc B c M' s' hgood hdec _ ih =>
    intro fuel hf
    match fuel with
    | f + 1 =>
      have hstep : demungeGo (f + 1) ('Q' :: 'z' :: (B ++ '_' :: M')) =
          qz_decode B ++ demungeGo f M' := by
        rw [demungeGo_qz, scanBody_append _ hgood]
      simp only [List.length_cons, List.length_append] at hf
      rw [hstep, ih f (by omega), hdec]
      rfl

theorem Inv.demunge_eq {M s : List Char} (h : Inv M s) : demungeL M = s :=
  h.demungeGo_eq M.length (Nat.le_refl _)

theorem hasQz_cons_false {c : Char} {cs : List Char}
    (h : hasQz (c :: cs) = false) :
    ¬(c = 'Q' ∧ cs.head? = some 'z') ∧ hasQz cs = false := by
  simp only [hasQz, Bool.or_eq_false_iff, Bool.and_eq_false_iff] at h
  refine ⟨?_, h.2⟩
  rintro ⟨hc, hh⟩
  rcases h.1 with h1 | h1
  · rw [hc] at h1; simp at h1
  · rw [hh] at h1; simp at h1

/-- Any list without the `Qz` bigram demunges to itself. -/
theorem Inv_refl {l : List Char} (h : hasQz l = false) : Inv l l := by
  induction l with
  | nil => exact Inv.nil
  | cons c cs ih =>
    obtain ⟨hside, hcs⟩ := hasQz_cons_false h
    exact Inv.keep hside (ih hcs)

theorem escCheck_of_ascii {c : Char} (h : c.toNat < 128) : escCheck c = true := by
  have := escCheck_ascii c.toNat h
  rwa [Char.ofNat_toNat] at this

theorem escCheck_parts {c : Char} (h : escCheck c = true) :
    goodBody (forceBody c) = true ∧ qz_decode (forceBody c) = [c] ∧
      (quotez (forceBody c)).all isIdentCont = true := by
  simp only [escCheck, Bool.and_eq_true, beq_iff_eq] at h
  exact ⟨h.1.1, h.1.2, h.2⟩

theorem encChars_cons (c : Char) (p : List Char) :
    encChars (c :: p) = qz_encode c ++ encChars p := by
  simp [encChars]

theorem qz_encode_kept {c : Char} (h : isIdentCont c = true) :
    qz_encode c = [c] := by
  simp [qz_encode, h]

theorem qz_encode_esc {c : Char} (h : isIdentCont c = false) :
    qz_encode c = 'Q' :: 'z' :: (forceBody c ++ ['_']) := by
  simp [qz_encode, h, force_qz_encode, quotez]

theorem encChars_all_identCont {p : List Char} (h : asciiOnly p = true) :
    (encChars p).all isIdentCont = true := by
  induction p with
  | nil => rfl
  | cons c cs ih =>
    simp only [asciiOnly, List.all_cons, Bool.and_eq_true, decide_eq_true_eq] at h
    rw [encChars_cons, List.all_append, Bool.and_eq_true]
    refine ⟨?_, ih (by simp [asciiOnly, h.2])⟩
    by_cases hk : isIdentCont c
    · simp [qz_encode_kept hk, hk]
    · have := (escCheck_parts (escCheck_of_ascii h.1)).2.2
      rw [qz_encode_esc (by simpa using hk)]
      simpa [quotez] using this

/-- The first emitted character of an encoded segment: either the kept
source character or the `Q` starting an escape. -/
theorem encChars_cons_head (d : Char) (t M : List Char) :
    (encChars (d :: t) ++ M).head? = some d ∨
      (encChars (d :: t) ++ M).head? = some 'Q' := by
  rw [encChars_cons]
  by_cases hk : isIdentCont d
  · left; rw [qz_encode_kept hk]; rfl
  · right; rw [qz_encode_esc (by simpa using hk)]; rfl

/-- Demunging inverts the character-wise encoding of an ASCII segment
with no `Qz` bigram, in front of any continuation that does not start
with `z`. -/
theorem enc_inv (p : List Char) {M s : List Char}
    (hascii : asciiOnly p = true) (hq : hasQz p = false)
    (hM : M.head? ≠ some 'z') (hInv : Inv M s) :
    Inv (encChars p ++ M) (p ++ s) := by
  induction p with
  | nil => simpa [encChars] using hInv
  | cons c cs ih =>
    obtain ⟨hside, hcs⟩ := hasQz_cons_false hq
    simp only [asciiOnly, List.all_cons, Bool.and_eq_true, decide_eq_true_eq] at hascii
    have tailInv : Inv (encChars cs ++ M) (cs ++ s) :=
      ih (by simp [asciiOnly, hascii.2]) hcs
    by_cases hk : isIdentCont c
    · rw [encChars_cons, qz_encode_kept hk, List.cons_append, List.nil_append]
      refine Inv.keep ?_ tailInv
      rintro ⟨hc, hh⟩
      cases cs with
      | nil => exact hM (by simpa [encChars] using hh)
      | cons d t =>
        have hh2 : (encChars (d :: t) ++ M).head? = some 'z' := hh
        rcases encChars_cons_head d t M with h1 | h1
        · rw [h1] at hh2
          exact hside ⟨hc, by simpa using hh2⟩
        · rw [h1] at hh2
          simp at hh2
    · have hesc := escCheck_parts (escCheck_of_ascii hascii.1)
      have heq : encChars (c :: cs) ++ M =
          'Q' :: 'z' :: (forceBody c ++ '_' :: (encChars cs ++ M)) := by
        rw [encChars_cons, qz_encode_esc (by simpa using hk)]
        simp [List.append_assoc]
      rw [heq]
      exact Inv.esc hesc.1 hesc.2.1 tailInv

/-- Demunging inverts `_munge_part` on an ASCII segment with no `Qz`
bigram, in front of any continuation that does not start with `z`. -/
theorem munge_part_inv (p : List Char) {M s : List Char}
    (hascii : asciiOnly p = true) (hq : hasQz p = false)
    (hM : M.head? ≠ some 'z') (hInv : Inv M s) :
    Inv (munge_part p ++ M) (p ++ s) := by
  cases p with
  | nil => simpa [munge_part] using hInv
  | cons c cs =>
    obtain ⟨hside, hcs⟩ := hasQz_cons_false hq
    simp only [asciiOnly, List.all_cons, Bool.and_eq_true, decide_eq_true_eq] at hascii
    have hq' : ((c :: cs).map qz_encode).flatten = encChars (c :: cs) := rfl
    by_cases hident : pyIsIdent (encChars (c :: cs))
    · have : munge_part (c :: cs) = encChars (c :: cs) := by
        simp only [munge_part, hq', hident, if_true]
      rw [this]
      exact enc_inv _ (by simp [asciiOnly, hascii.1, hascii.2]) hq hM hInv
    · -- The fixup fired, so the first character must have been kept
      -- (an escaped first character starts the identifier with `Q`).
      have hk : isIdentCont c = true := by
        by_contra hkneg
        have hk' : isIdentCont c = false := by simpa using hkneg
        have hall : (encChars (c :: cs)).all isIdentCont = true :=
          encChars_all_identCont (by simp [asciiOnly, hascii.1, hascii.2])
        rw [encChars_cons, qz_encode_esc hk'] at hall
        simp only [List.cons_append, List.all_cons, Bool.and_eq_true] at hall
        refine hident ?_
        have hrw : encChars (c :: cs) =
            'Q' :: 'z' :: ((forceBody c ++ ['_']) ++ encChars cs) := by
          rw [encChars_cons, qz_encode_esc hk']
          simp [List.cons_append]
        rw [hrw]
        simp only [pyIsIdent, Bool.and_eq_true]
        refine ⟨by decide, ?_⟩
        simp only [List.all_cons, Bool.and_eq_true]
        exact ⟨by decide, hall.2.2⟩
      have hshape : encChars (c :: cs) = c :: encChars cs := by
        rw [encChars_cons, qz_encode_kept hk]; rfl
      have hmp : munge_part (c :: cs) = force_qz_encode c ++ encChars cs := by
        simp only [munge_part, hq']
        rw [hshape] at hident ⊢
        simp [hident]
      rw [hmp]
      have hesc := escCheck_parts (escCheck_of_ascii hascii.1)
      have tailInv : Inv (encChars cs ++ M) (cs ++ s) :=
        enc_inv _ (by simp [asciiOnly, hascii.2]) hcs hM hInv
      have harr : (force_qz_encode c ++ encChars cs) ++ M =
          'Q' :: 'z' :: (forceBody c ++ '_' :: (encChars cs ++ M)) := by
        simp [force_qz_encode, quotez, List.append_assoc]
      rw [harr]
      exact Inv.esc hesc.1 hesc.2.1 tailInv

theorem splitDot_ne_nil (s : List Char) : splitDot s ≠ [] := by
  cases s with
  | nil => simp [splitDot]
  | cons c cs =>
    simp only [splitDot]
    by_cases hc : c = '.'
    · simp [hc]
    · simp only [hc, if_false]
      rcases h : splitDot cs with _ | ⟨p, ps⟩ <;> simp

theorem joinDot_splitDot (s : List Char) : joinDot (splitDot s) = s := by
  induction s with
  | nil => rfl
  | cons c cs ih =>
    simp only [splitDot]
    by_cases hc : c = '.'
    · subst hc
      simp only [if_pos rfl]
      rcases h : splitDot cs with _ | ⟨p, ps⟩
      · exact absurd h (splitDot_ne_nil cs)
      · rw [h] at ih
        simpa [joinDot] using ih
    · simp only [hc, if_false]
      rcases h : splitDot cs with _ | ⟨p, ps⟩
      · exact absurd h (splitDot_ne_nil cs)
      · rw [h] at ih
        cases ps with
        | nil => simpa [joinDot] using ih
        | cons q qs => simpa [joinDot] using ih

/-- The head of the first segment is the head of the string, unless the
string starts with a dot (empty first segment). -/
theorem splitDot_head (s : List Char) {p : List Char} {ps : List (List Char)}
    (h : splitDot s = p :: ps) : p.head? = s.head? ∨ p = [] := by
  cases s with
  | nil => simp only [splitDot, List.cons.injEq] at h; right; exact h.1.symm
  | cons c cs =>
    simp only [splitDot] at h
    by_cases hc : c = '.'
    · rw [if_pos hc] at h; right; exact (List.cons_eq_cons.mp h).1.symm
    · rw [if_neg hc] at h
      rcases h2 : splitDot cs with _ | ⟨q, qs⟩
      · exact absurd h2 (splitDot_ne_nil cs)
      · rw [h2] at h
        left
        rw [← (List.cons_eq_cons.mp h).1]
        rfl

theorem splitDot_parts_ok {s : List Char} (ha : asciiOnly s = true)
    (hq : hasQz s = false) :
    ∀ p ∈ splitDot s, asciiOnly p = true ∧ hasQz p = false := by
  induction s with
  | nil =>
    intro p hp
    simp only [splitDot, List.mem_singleton] at hp
    subst hp; exact ⟨rfl, rfl⟩
  | cons c cs ih =>
    obtain ⟨hside, hcs⟩ := hasQz_cons_false hq
    simp only [asciiOnly, List.all_cons, Bool.and_eq_true, decide_eq_true_eq] at ha
    have ihcs := ih (by simp [asciiOnly, ha.2]) hcs
    intro p hp
    simp only [splitDot] at hp
    by_cases hc : c = '.'
    · rw [if_pos hc] at hp
      rcases List.mem_cons.mp hp with h1 | h1
      · subst h1; exact ⟨rfl, rfl⟩
      · exact ihcs p h1
    · rw [if_neg hc] at hp
      rcases h2 : splitDot cs with _ | ⟨q, qs⟩
      · exact absurd h2 (splitDot_ne_nil cs)
      · rw [h2] at hp
        rcases List.mem_cons.mp hp with h1 | h1
        · subst h1
          have hqok := (ihcs q (by rw [h2]; exact List.mem_cons_self q qs)).2
          have haok := (ihcs q (by rw [h2]; exact List.mem_cons_self q qs)).1
          constructor
          · simp only [asciiOnly, List.all_cons, Bool.and_eq_true,
              decide_eq_true_eq]
            exact ⟨ha.1, by simpa [asciiOnly] using haok⟩
          · simp only [hasQz, Bool.or_eq_false_iff]
            refine ⟨?_, hqok⟩
            rcases splitDot_head cs h2 with hh | hh
            · by_cases hcq : c = 'Q'
              · by_cases hz : q.head? = some 'z'
                · exact absurd ⟨hcq, hh.symm.trans hz⟩ hside
                · simp [hz]
              · simp [hcq]
            · subst hh; simp
        · exact ihcs p (h2 ▸ List.mem_cons_of_mem q h1)

theorem joinDot_inv : ∀ parts : List (List Char),
    (∀ p ∈ parts, asciiOnly p = true ∧ hasQz p = false) →
    Inv (joinDot (parts.map munge_part)) (joinDot parts) := by
  intro parts
  induction parts with
  | nil => intro _; exact Inv.nil
  | cons p ps ih =>
    intro h
    have hp := h p (List.mem_cons_self p ps)
    cases ps with
    | nil =>
      have := munge_part_inv p hp.1 hp.2 (by simp) Inv.nil
      simpa [joinDot] using this
    | cons q qs =>
      have hrest := ih (fun r hr => h r (List.mem_cons_of_mem p hr))
      have dotInv : Inv ('.' :: joinDot ((q :: qs).map munge_part))
          ('.' :: joinDot (q :: qs)) :=
        Inv.keep (by rintro ⟨hc, _⟩; exact absurd hc (by decide)) hrest
      have := munge_part_inv p hp.1 hp.2 (by simp) dotInv
      simpa [joinDot] using this

/-- On ASCII input with no `Qz` bigram, demunging inverts munging. -/
theorem demunge_munge_list {s : List Char} (ha : asciiOnly s = true)
    (hq : hasQz s = false) : demungeL (mungeL s) = s := by
  by_cases hident : pyIsIdent (nfkcAscii s)
  · have hm : mungeL s = s := by simp [mungeL, nfkcAscii] at hident ⊢; simp [hident]
    rw [hm]
    exact (Inv_refl hq).demunge_eq
  · have hm : mungeL s = joinDot ((splitDot s).map munge_part) := by
      simp [mungeL, nfkcAscii] at hident ⊢
      simp [hident]
    rw [hm]
    have hinv := joinDot_inv (splitDot s) (splitDot_parts_ok ha hq)
    rw [joinDot_splitDot] at hinv
    exact hinv.demunge_eq

/-- Claim C2 counterexample.  `"QzHYPHENhMINUS_"` is already a valid
identifier, so `munge` returns it unchanged; but `demunge` decodes its
Unicode-name Quotez to `"-"`, which re-munges to the canonical short
name `"QzH_"`, so `munge (demunge (munge s)) ≠ munge s`. -/
theorem claim2_counterexample :
    munge (demunge (munge "QzHYPHENhMINUS_")) ≠ munge "QzHYPHENhMINUS_" ∧
      munge (demunge (munge "QzHYPHENhMINUS_")) = "QzH_" ∧
      munge "QzHYPHENhMINUS_" = "QzHYPHENhMINUS_" := by
  refine ⟨?_, by decide, by decide⟩
  decide

/-- Claim C2 (amended): for every ASCII string `s` containing no `Qz`
bigram, `munge (demunge (munge s)) = munge s` (indeed already
`demunge (munge s) = s`). -/
theorem claim2_munge_demunge_munge (s : String)
    (ha : asciiOnly s.data = true) (hq : hasQz s.data = false) :
    munge (demunge (munge s)) = munge s ∧ demunge (munge s) = s := by
  have h1 : demunge (munge s) = s := by
    show String.mk (demungeL (String.mk (mungeL s.data)).data) = s
    have hdata : (String.mk (mungeL s.data)).data = mungeL s.data := rfl
    rw [hdata, demunge_munge_list ha hq]
  exact ⟨by rw [h1], h1⟩

/-- Witness for the amended claim C2 at a concrete input. -/
theorem claim2_munge_demunge_munge_witness :
    asciiOnly "*FOO-BAR*".data = true ∧ hasQz "*FOO-BAR*".data = false ∧
      munge (demunge (munge "*FOO-BAR*")) = munge "*FOO-BAR*" :=
  ⟨by decide, by decide,
    (claim2_munge_demunge_munge "*FOO-BAR*" (by decide) (by decide)).1⟩

/-- Claim C4: the qualifier applies exactly the claimed precedence.
A known `_macro_` attribute in invocation position qualifies as
`<qualname>.._macro_.s` before the builtins check; an unshadowed
builtin as `builtins..s`; a dotless invocation as the tentative
`<qualname>..QzMaybe_.s`; anything else as `<qualname>..s`; and
unqualifiable symbols — reserved words, auto-gensym-prefixed names, and
those with a non-identifier dot-part (already qualified `a..b`, module
handles `mod.`, method syntax `.m`) — come back unchanged. -/
theorem claim4_qualify_precedence (env : QEnv) (s : String) (inv : Bool) :
    (is_qualifiable s = false → qualify env s inv = s) ∧
    (iskeyword s = true → qualify env s inv = s) ∧
    (gensymPrefixMatch s.data = true → qualify env s inv = s) ∧
    ((splitDot s.data).all pyIsIdent = false → qualify env s inv = s) ∧
    (is_qualifiable s = true →
      inv = true → env.envKeys.contains "_macro_" = true →
      env.macroAttrs.contains s = true →
      qualify env s inv = env.qualname ++ ".._macro_." ++ s) ∧
    (is_qualifiable s = true →
      (inv && env.envKeys.contains "_macro_" && env.macroAttrs.contains s)
        = false →
      env.builtinsDir.contains s = true →
      env.envKeys.contains (rootName s) = false →
      qualify env s inv = "builtins.." ++ s) ∧
    (is_qualifiable s = true →
      (inv && env.envKeys.contains "_macro_" && env.macroAttrs.contains s)
        = false →
      (env.builtinsDir.contains s
        && !(env.envKeys.contains (rootName s))) = false →
      inv = true → s.data.contains '.' = false →
      qualify env s inv = env.qualname ++ "..QzMaybe_." ++ s) ∧
    (is_qualifiable s = true →
      (inv && env.envKeys.contains "_macro_" && env.macroAttrs.contains s)
        = false →
      (env.builtinsDir.contains s
        && !(env.envKeys.contains (rootName s))) = false →
      (inv && !(s.data.contains '.')) = false →
      qualify env s inv = env.qualname ++ ".." ++ s) := by
  refine ⟨?_, ?_, ?_, ?_, ?_, ?_, ?_, ?_⟩
  · intro h; simp [qualify, h]
  · intro h
    have hnq : is_qualifiable s = false := by
      simp [is_qualifiable, h]
    simp [qualify, hnq]
  · intro h
    have hnq : is_qualifiable s = false := by
      simp [is_qualifiable, h]
    simp [qualify, hnq]
  · intro h
    have hnq : is_qualifiable s = false := by
      simp [is_qualifiable, h]
    simp [qualify, hnq]
  · intro hq hi hm ha
    unfold qualify
    rw [if_pos hq, if_pos (by rw [hi, hm, ha]; rfl)]
  · intro hq hmac hb hsh
    unfold qualify
    rw [if_pos hq, if_neg (by rw [hmac]; exact Bool.false_ne_true),
      if_pos (by rw [hb, hsh]; rfl)]
  · intro hq hmac hbs hi hd
    unfold qualify
    rw [if_pos hq, if_neg (by rw [hmac]; exact Bool.false_ne_true),
      if_neg (by rw [hbs]; exact Bool.false_ne_true),
      if_pos (by rw [hi, hd]; rfl)]
  · intro hq hmac hbs hid
    unfold qualify
    rw [if_pos hq, if_neg (by rw [hmac]; exact Bool.false_ne_true),
      if_neg (by rw [hbs]; exact Bool.false_ne_true),
      if_neg (by rw [hid]; exact Bool.false_ne_true)]

/-- Witness for claim C4: the tentative-macro branch at a concrete
symbol and environment. -/
theorem claim4_qualify_precedence_witness :
    qualify ⟨"mymod", ["__name__"], [], []⟩ "foo" true =
      "mymod..QzMaybe_.foo" :=
  (claim4_qualify_precedence ⟨"mymod", ["__name__"], [], []⟩ "foo"
    true).2.2.2.2.2.2.1 (by decide) (by decide) (by decide) rfl (by decide)

/-- Claim C10: `quote` and `__import__` are never qualified although
neither is a Python reserved word: `is_qualifiable` singles them out,
so `qualify` returns them unchanged in every environment and position. -/
theorem claim10_quote_import_unqualified :
    is_qualifiable "quote" = false ∧ is_qualifiable "__import__" = false ∧
      iskeyword "quote" = false ∧ iskeyword "__import__" = false ∧
      (∀ env : QEnv, ∀ inv : Bool, qualify env "quote" inv = "quote") ∧
      (∀ env : QEnv, ∀ inv : Bool,
        qualify env "__import__" inv = "__import__") := by
  refine ⟨by decide, by decide, by decide, by decide, ?_, ?_⟩
  · intro env inv
    simp [qualify, show is_qualifiable "quote" = false by decide]
  · intro env inv
    simp [qualify, show is_qualifiable "__import__" = false by decide]

theorem macroexpandF_fixed {env : MEnv} {n : Nat} {f r : Form}
    (h : macroexpandF env id n f = .ok (some r)) :
    macroexpand1F env r = .ok r := by
  induction n generalizing f with
  | zero => simp [macroexpandF] at h
  | succ n ih =>
    simp only [macroexpandF, id] at h
    rcases hm : macroexpand1F env f with e | expanded <;> rw [hm] at h <;>
      dsimp only at h
    · exact absurd h (by simp)
    · by_cases heq : expanded = f
      · rw [if_pos heq] at h
        have hrf : f = r := by simpa using h
        subst hrf
        rw [hm, heq]
      · rw [if_neg heq] at h
        exact ih h

/-- Claim C5: `macroexpand` is idempotent — whenever it returns a
result `r` (within any amount of fuel, default preprocessing), running
it again on `r` returns `r` at once. -/
theorem claim5_macroexpand_idempotent (env : MEnv) (n m : Nat) (f r : Form)
    (h : macroexpandF env id n f = .ok (some r)) :
    macroexpandF env id (m + 1) r = .ok (some r) := by
  have h1 := macroexpandF_fixed h
  simp only [macroexpandF, id]
  rw [h1]
  dsimp only
  rw [if_pos rfl]

/-- Witness for claim C5: a two-step expansion, then idempotence. -/
theorem claim5_macroexpand_idempotent_witness :
    macroexpandF mEnvIdFirst id 5
        (.tup (.cons (.str "m") (.cons (.int 3) .nil))) = .ok (some (.int 3)) ∧
      macroexpandF mEnvIdFirst id 1 (.int 3) = .ok (some (.int 3)) := by
  have h1 : macroexpandF mEnvIdFirst id 5
      (.tup (.cons (.str "m") (.cons (.int 3) .nil))) = .ok (some (.int 3)) := by
    rfl
  exact ⟨h1, claim5_macroexpand_idempotent mEnvIdFirst 5 0 _ (.int 3) h1⟩

/-- Claim C9: `macroexpand1` returns any `quote`- or `lambda`-headed
non-empty tuple unchanged, whatever the environment — even one that
binds a macro named `quote` or `lambda`. -/
theorem claim9_quote_lambda_not_expanded (env : MEnv) (h : Form) (t : FList)
    (hh : h = .str "quote" ∨ h = .str "lambda") :
    macroexpand1F env (.tup (.cons h t)) = .ok (.tup (.cons h t)) := by
  simp [macroexpand1F, hh]

/-- Witness for claim C9 with a `quote` macro bound in the environment. -/
theorem claim9_quote_lambda_not_expanded_witness :
    macroexpand1F mEnvShadow
        (.tup (.cons (.str "quote") (.cons (.str "x") .nil))) =
      .ok (.tup (.cons (.str "quote") (.cons (.str "x") .nil))) :=
  claim9_quote_lambda_not_expanded mEnvShadow _ _ (Or.inl rfl)

theorem readToks_class (ts : List Tok) :
    ∀ (st : List (Nat × List Form)) (acc : List Form) (i : Nat),
      ((∃ p, readToks ts st acc i = .hard p) ↔
        extraClose ts st.length = true) ∧
      ((∃ p, readToks ts st acc i = .soft p) ↔
        extraClose ts st.length = false ∧ 0 < openDepth ts st.length) := by
  induction ts with
  | nil =>
    intro st acc i
    cases st with
    | nil =>
      refine ⟨⟨fun ⟨p, hp⟩ => by simp [readToks] at hp, fun h => by
        simp [extraClose] at h⟩, ?_⟩
      constructor
      · rintro ⟨p, hp⟩; simp [readToks] at hp
      · rintro ⟨_, h2⟩; simp [openDepth] at h2
    | cons s st' =>
      refine ⟨⟨fun ⟨p, hp⟩ => by simp [readToks] at hp, fun h => by
        simp [extraClose] at h⟩, ?_⟩
      constructor
      · intro _
        exact ⟨rfl, by simp [openDepth]⟩
      · intro _
        exact ⟨s.1, by simp [readToks]⟩
  | cons t ts ih =>
    intro st acc i
    cases t with
    | lpar =>
      have := ih ((i, acc) :: st) [] (i + 1)
      simpa [readToks, extraClose, openDepth] using this
    | rpar =>
      cases st with
      | nil =>
        refine ⟨⟨fun _ => by simp [extraClose], fun _ => ⟨i, by simp [readToks]⟩⟩, ?_⟩
        constructor
        · rintro ⟨p, hp⟩; simp [readToks] at hp
        · rintro ⟨h1, _⟩; simp [extraClose] at h1
      | cons s st' =>
        have := ih st' (.tup (FList.ofList acc.reverse) :: s.2) (i + 1)
        simpa [readToks, extraClose, openDepth] using this
    | bare f =>
      have := ih st (f :: acc) (i + 1)
      simpa [readToks, extraClose, openDepth] using this

/-- Claim C6: for every token stream, reading yields a hard syntax
error exactly when some prefix has an unmatched `)`, and a soft syntax
error (REPL may request more input) exactly when the parens never
over-close but some `(` is left unclosed at end of input. -/
theorem claim6_hard_soft_errors (ts : List Tok) :
    ((∃ p, readLissp ts = .hard p) ↔ extraClose ts 0 = true) ∧
      ((∃ p, readLissp ts = .soft p) ↔
        extraClose ts 0 = false ∧ 0 < openDepth ts 0) := by
  have := readToks_class ts [] [] 0
  simpa [readLissp] using this

theorem padK_nil (k : Nat) : padK k [] = [] := rfl

theorem padK_cons (k : Nat) (c : Char) (l : List Char) :
    padK k (c :: l) =
      (if c = '\n' then '\n' :: spaces k else [c]) ++ padK k l := by
  simp [padK]

theorem padK_append (k : Nat) (a b : List Char) :
    padK k (a ++ b) = padK k a ++ padK k b := by
  simp [padK]

theorem padK_zero (l : List Char) : padK 0 l = l := by
  induction l with
  | nil => rfl
  | cons c cs ih =>
    rw [padK_cons]
    by_cases hc : c = '\n'
    · subst hc; simpa [spaces] using ih
    · simpa [hc] using ih

theorem padK_padNl (k : Nat) (l : List Char) :
    padK k (padNl l) = padK (k + 1) l := by
  induction l with
  | nil => rfl
  | cons c cs ih =>
    by_cases hc : c = '\n'
    · subst hc
      have h1 : padNl ('\n' :: cs) = '\n' :: ' ' :: padNl cs := by simp [padNl]
      rw [h1, padK_cons, padK_cons]
      simp only [if_pos rfl, reduceIte, show (' ' : Char) ≠ '\n' by decide,
        if_neg]
      rw [padK_cons, if_pos rfl, ih]
      simp only [spaces, List.cons_append, List.nil_append, List.cons.injEq,
        true_and]
      rw [List.append_cons, ← List.replicate_succ', List.replicate_succ,
        List.cons_append]
    · have h1 : padNl (c :: cs) = c :: padNl cs := by simp [padNl, hc]
      rw [h1, padK_cons, padK_cons, if_neg hc, if_neg hc, ih]

theorem padK_no_nl {l : List Char} (k : Nat)
    (h : l.all (fun c => !(c = '\n')) = true) : padK k l = l := by
  induction l with
  | nil => rfl
  | cons c cs ih =>
    simp only [List.all_cons, Bool.and_eq_true, Bool.not_eq_true',
      decide_eq_false_iff_not] at h
    rw [padK_cons, if_neg (by simpa using h.1)]
    simp [ih (by simpa [List.all_eq_true] using h.2)]

theorem padK_joinSep (k : Nat) (sep : List Char) (ps : List (List Char)) :
    padK k (joinSep sep ps) = joinSep (padK k sep) (ps.map (padK k)) := by
  induction ps with
  | nil => rfl
  | cons p ps ih =>
    cases ps with
    | nil => rfl
    | cons q qs =>
      simp only [joinSep, List.map_cons, padK_append]
      rw [ih]
      simp [List.map_cons]

theorem length_padK (k : Nat) (l : List Char) : l.length ≤ (padK k l).length := by
  induction l with
  | nil => simp [padK]
  | cons c cs ih =>
    rw [padK_cons]
    by_cases hc : c = '\n' <;> simp [hc, List.length_append] <;> omega

/-! Digit emission and parsing agree. -/

theorem digitsVal_append_one (l : List Char) (c : Char) :
    digitsVal (l ++ [c]) = 10 * digitsVal l + (c.toNat - 48) := by
  simp [digitsVal, List.foldl_append]

theorem natDecimalGo_spec :
    ∀ f n, n ≤ f →
      (natDecimalGo f n).all isAsciiDigit = true ∧ natDecimalGo f n ≠ [] ∧
        digitsVal (natDecimalGo f n) = n := by
  intro f
  induction f with
  | zero =>
    intro n hn
    interval_cases n
    exact ⟨by decide, by decide, by decide⟩
  | succ f ih =>
    intro n hn
    by_cases h10 : n < 10
    · have heq : natDecimalGo (f + 1) n = [Char.ofNat (48 + n)] := by
        simp [natDecimalGo, h10]
      rw [heq]
      interval_cases n <;> exact ⟨by decide, by decide, by decide⟩
    · have heq : natDecimalGo (f + 1) n =
          natDecimalGo f (n / 10) ++ [Char.ofNat (48 + n % 10)] := by
        simp [natDecimalGo, h10]
      have hdiv : n / 10 ≤ f := by
        have := Nat.div_lt_self (by omega : 0 < n) (by omega : 1 < 10)
        omega
      obtain ⟨ha, hne, hv⟩ := ih (n / 10) hdiv
      rw [heq]
      refine ⟨?_, by simp, ?_⟩
      · rw [List.all_append, ha]
        have hm : n % 10 < 10 := Nat.mod_lt _ (by omega)
        set m := n % 10 with hmdef
        interval_cases m <;> decide
      · rw [digitsVal_append_one, hv]
        have hm : n % 10 < 10 := Nat.mod_lt _ (by omega)
        have hc : (Char.ofNat (48 + n % 10)).toNat - 48 = n % 10 := by
          set m := n % 10 with hmdef
          interval_cases m <;> decide
        rw [hc]
        omega

theorem natDecimal_spec (n : Nat) :
    (natDecimal n).all isAsciiDigit = true ∧ natDecimal n ≠ [] ∧
      digitsVal (natDecimal n) = n :=
  natDecimalGo_spec n n (Nat.le_refl n)

theorem digit_facts {c : Char} (h : isAsciiDigit c = true) :
    isWs c = false ∧ c ≠ '(' ∧ c ≠ '\'' ∧ c ≠ '"' ∧ c ≠ '-' ∧ c ≠ ')' ∧
      c ≠ ',' ∧ c ≠ '\n' := by
  refine ⟨?_, ?_, ?_, ?_, ?_, ?_, ?_, ?_⟩
  · by_contra hw
    have hw' : isWs c = true := by simpa using hw
    simp only [isWs, Bool.or_eq_true, decide_eq_true_eq] at hw'
    rcases hw' with h1 | h1 <;> (subst h1; revert h; decide)
  all_goals (rintro rfl; revert h; decide)

/-! Case equations for `parseVal` at concrete head characters. -/

theorem parseVal_sq (f : Nat) (X : List Char) :
    parseVal (f + 1) ('\'' :: X) =
      (match parseStrBody '\'' X with
       | some (s, r) => some (.str (String.mk s), r)
       | none => none) := rfl

theorem parseVal_dq (f : Nat) (X : List Char) :
    parseVal (f + 1) ('"' :: X) =
      (match parseStrBody '"' X with
       | some (s, r) => some (.str (String.mk s), r)
       | none => none) := rfl

theorem parseVal_lpar (f : Nat) (X : List Char) :
    parseVal (f + 1) ('(' :: X) =
      (match X.dropWhile isWs with
       | [] => none
       | c2 :: r2 =>
         if c2 = ')' then some (.tup .nil, r2)
         else
           match parseVal f (c2 :: r2) with
           | none => none
           | some (v, r3) =>
             match r3.dropWhile isWs with
             | [] => none
             | c4 :: r4 =>
               if c4 = ')' then some (v, r4)
               else if c4 = ',' then parseTupleRest f [v] r4
               else none) := rfl

theorem parseVal_dash (f : Nat) (X : List Char) :
    parseVal (f + 1) ('-' :: X) =
      (match X.takeWhile isAsciiDigit with
       | [] => none
       | ds => some (.int (-(digitsVal ds : Int)), X.dropWhile isAsciiDigit)) :=
  rfl

theorem parseVal_digit (f : Nat) {c : Char} (X : List Char)
    (h : isAsciiDigit c = true) :
    parseVal (f + 1) (c :: X) =
      some (.int (digitsVal (c :: X.takeWhile isAsciiDigit)),
        X.dropWhile isAsciiDigit) := by
  obtain ⟨h1, h2, h3, h4, h5, _, _, _⟩ := digit_facts h
  simp [parseVal, List.dropWhile_cons, h1, h2, h3, h4, h5, h]

/-! String-literal round trips. -/

theorem escSq_cons (c : Char) (l : List Char) :
    escSq (c :: l) =
      (if c = '\\' then ['\\', '\\']
       else if c = '\'' then ['\\', '\''] else [c]) ++ escSq l := by
  simp [escSq]

theorem escDq_cons (c : Char) (l : List Char) :
    escDq (c :: l) =
      (if c = '\\' then ['\\', '\\'] else [c]) ++ escDq l := by
  simp [escDq]

theorem parseStrBody_escSq (s : List Char) (rest : List Char) :
    parseStrBody '\'' (escSq s ++ '\'' :: rest) = some (s, rest) := by
  induction s with
  | nil => simp [escSq, parseStrBody.eq_def]
  | cons c cs ih =>
    rw [escSq_cons]
    by_cases hb : c = '\\'
    · subst hb
      simp only [if_pos rfl, List.cons_append, List.nil_append]
      rw [parseStrBody.eq_def]
      simp [ih, unesc]
    · by_cases hq : c = '\''
      · subst hq
        simp only [if_neg (by decide : ('\'' : Char) ≠ '\\'), if_pos rfl,
          List.cons_append, List.nil_append]
        rw [parseStrBody.eq_def]
        simp [ih, unesc]
      · simp only [if_neg hb, if_neg hq, List.cons_append, List.nil_append]
        rw [parseStrBody.eq_def]
        simp [hb, hq, ih]

theorem parseStrBody_escDq (s : List Char) (rest : List Char)
    (h : s.contains '"' = false) :
    parseStrBody '"' (escDq s ++ '"' :: rest) = some (s, rest) := by
  induction s with
  | nil => simp [escDq, parseStrBody.eq_def]
  | cons c cs ih =>
    have hc : c ≠ '"' ∧ cs.contains '"' = false := by
      constructor
      · intro hcon
        subst hcon
        simp [List.contains_cons] at h
      · rcases hcc : cs.contains '"'
        · rfl
        · rw [List.contains_cons, hcc] at h
          simp at h
    rw [escDq_cons]
    by_cases hb : c = '\\'
    · subst hb
      simp only [if_pos rfl, List.cons_append, List.nil_append]
      rw [parseStrBody.eq_def]
      simp [ih hc.2, unesc]
    · simp only [if_neg hb, List.cons_append, List.nil_append]
      rw [parseStrBody.eq_def]
      simp [hb, hc.1, ih hc.2]

theorem parseVal_pyReprStr (f : Nat) (s : List Char) (rest : List Char) :
    parseVal (f + 1) (pyReprStr s ++ rest) =
      some (.str (String.mk s), rest) := by
  unfold pyReprStr
  rcases hcond : (s.contains '\'' && !(s.contains '"')) with _ | _
  · rw [if_neg (by simp [hcond])]
    have harr : ('\'' :: (escSq s ++ ['\''])) ++ rest =
        '\'' :: (escSq s ++ '\'' :: rest) := by simp
    rw [harr, parseVal_sq, parseStrBody_escSq]
  · rw [if_pos (by simp [hcond])]
    have hdq : s.contains '"' = false := by
      rcases h2 : s.contains '"'
      · rfl
      · rw [h2] at hcond; simp at hcond
    have harr : ('"' :: (escDq s ++ ['"'])) ++ rest =
        '"' :: (escDq s ++ '"' :: rest) := by simp
    rw [harr, parseVal_dq, parseStrBody_escDq s rest hdq]

theorem parseVal_format_repr {v : Form} (hs : isScalar v = true)
    (hok : pyOk v = true) :
    ∀ (f : Nat) (rest : List Char),
      parseVal (f + 2) (format_repr v ++ rest) = some (v, rest) := by
  intro f rest
  cases v with
  | str s =>
    have he : String.mk s.data = s := rfl
    have := parseVal_pyReprStr (f + 1) s.data rest
    rw [he] at this
    exact this
  | int n =>
    cases n with
    | ofNat m =>
      obtain ⟨hall, hne, hval⟩ := natDecimal_spec m
      obtain ⟨d, ds, hnd⟩ := List.exists_cons_of_ne_nil hne
      have harr : format_repr (.int (Int.ofNat m)) ++ rest =
          '(' :: (d :: (ds ++ ')' :: rest)) := by
        simp [format_repr, intRepr, hnd]
      rw [harr, parseVal_lpar]
      rw [hnd, List.all_cons, Bool.and_eq_true] at hall
      obtain ⟨h1, h2, _, _, _, h6, _, _⟩ := digit_facts hall.1
      rw [List.dropWhile_cons, if_neg (by simp [h1])]
      dsimp only
      rw [if_neg h6]
      rw [parseVal_digit f _ hall.1]
      have hnb : isAsciiDigit ')' = false := by decide
      rw [takeWhile_all_append _ _ hall.2 hnb,
        dropWhile_all_append _ _ hall.2 hnb]
      have hdv : digitsVal (d :: ds) = m := by rw [← hnd]; exact hval
      rw [hdv]
      dsimp only
      rw [List.dropWhile_cons, if_neg (by simp [isWs])]
      dsimp only
      rw [if_pos rfl]
      rfl
    | negSucc m =>
      obtain ⟨hall, hne, hval⟩ := natDecimal_spec (m + 1)
      have harr : format_repr (.int (Int.negSucc m)) ++ rest =
          '(' :: ('-' :: (natDecimal (m + 1) ++ ')' :: rest)) := by
        simp [format_repr, intRepr]
      rw [harr, parseVal_lpar]
      rw [List.dropWhile_cons, if_neg (by simp [isWs])]
      dsimp only
      rw [if_neg (by decide : ('-' : Char) ≠ ')')]
      rw [parseVal_dash]
      have hnb : isAsciiDigit ')' = false := by decide
      rw [takeWhile_all_append _ _ hall hnb,
        dropWhile_all_append _ _ hall hnb]
      obtain ⟨d, ds, hnd⟩ := List.exists_cons_of_ne_nil hne
      have hneg : -(digitsVal (d :: ds) : Int) = Int.negSucc m := by
        rw [← hnd, hval]
        rfl
      rw [hnd]
      show some (Form.int (-(digitsVal (d :: ds) : Int)), rest) =
        some (Form.int (Int.negSucc m), rest)
      rw [hneg]
  | bool b => cases b <;> rfl
  | pyNone => rfl
  | ellip => simp [isScalar] at hs
  | unq t v => simp [isScalar] at hs
  | tup xs =>
    cases xs with
    | nil => rfl
    | cons x xs => simp [isScalar] at hs

theorem format_repr_ne_nil (v : Form) : format_repr v ≠ [] := by
  cases v with
  | str s =>
    simp only [format_repr, pyReprStr]
    split <;> simp
  | bool b => cases b <;> simp [format_repr]
  | _ => simp [format_repr]

theorem tryEval_format_repr {v : Form} (hs : isScalar v = true)
    (hok : pyOk v = true) : tryEval (format_repr v) = some v := by
  unfold tryEval
  have hlen : 1 ≤ (format_repr v).length :=
    List.length_pos.mpr (format_repr_ne_nil v)
  obtain ⟨f, hf⟩ : ∃ f, (format_repr v).length + 1 = f + 2 :=
    ⟨(format_repr v).length - 1, by omega⟩
  rw [hf]
  have := parseVal_format_repr hs hok f []
  rw [List.append_nil] at this
  rw [this]
  rfl

theorem escSq_no_nl {s : List Char} (h : s.all printableAscii = true) :
    (escSq s).all (fun c => !(c = '\n')) = true := by
  induction s with
  | nil => rfl
  | cons c cs ih =>
    simp only [List.all_cons, Bool.and_eq_true] at h
    rw [escSq_cons, List.all_append, Bool.and_eq_true]
    refine ⟨?_, ih h.2⟩
    have hc : c ≠ '\n' := by
      intro hcon
      rw [hcon] at h
      exact absurd h.1 (by decide)
    by_cases h1 : c = '\\'
    · simp [h1]
    · by_cases h2 : c = '\''
      · simp [h1, h2]
      · simp [h1, h2, hc]

theorem escDq_no_nl {s : List Char} (h : s.all printableAscii = true) :
    (escDq s).all (fun c => !(c = '\n')) = true := by
  induction s with
  | nil => rfl
  | cons c cs ih =>
    simp only [List.all_cons, Bool.and_eq_true] at h
    rw [escDq_cons, List.all_append, Bool.and_eq_true]
    refine ⟨?_, ih h.2⟩
    have hc : c ≠ '\n' := by
      intro hcon
      rw [hcon] at h
      exact absurd h.1 (by decide)
    by_cases h1 : c = '\\'
    · simp [h1]
    · simp [h1, hc]

theorem format_repr_no_nl {v : Form} (hs : isScalar v = true)
    (hok : pyOk v = true) :
    (format_repr v).all (fun c => !(c = '\n')) = true := by
  cases v with
  | str s =>
    have hp : s.data.all printableAscii = true := by
      have := hok
      simp only [pyOk, Bool.and_eq_true] at this
      exact this.1
    simp only [format_repr, pyReprStr]
    split
    · simp only [List.all_cons, Bool.and_eq_true]
      refine ⟨by decide, ?_⟩
      rw [List.all_append]
      simp [escDq_no_nl hp]
    · simp only [List.all_cons, Bool.and_eq_true]
      refine ⟨by decide, ?_⟩
      rw [List.all_append]
      simp [escSq_no_nl hp]
  | int n =>
    simp only [format_repr, List.all_cons, Bool.and_eq_true]
    refine ⟨by decide, ?_⟩
    rw [List.all_append, Bool.and_eq_true]
    refine ⟨?_, by decide⟩
    cases n with
    | ofNat m =>
      have := (natDecimal_spec m).1
      simp only [intRepr]
      revert this
      rw [List.all_eq_true, List.all_eq_true]
      intro h c hc
      have hd := h c hc
      obtain ⟨_, _, _, _, _, _, _, h8⟩ := digit_facts hd
      simp [h8]
    | negSucc m =>
      have := (natDecimal_spec (m + 1)).1
      simp only [intRepr, List.all_cons, Bool.and_eq_true]
      refine ⟨by decide, ?_⟩
      revert this
      rw [List.all_eq_true, List.all_eq_true]
      intro h c hc
      have hd := h c hc
      obtain ⟨_, _, _, _, _, _, _, h8⟩ := digit_facts hd
      simp [h8]
  | bool b => cases b <;> decide
  | pyNone => decide
  | ellip => simp [isScalar] at hs
  | unq t v => simp [isScalar] at hs
  | tup xs =>
    cases xs with
    | nil => decide
    | cons x xs => simp [isScalar] at hs

/-- On the modelled domain the literal round-trip check in `atomic`
always passes, so the scalar path emits exactly `_format_repr`. -/
theorem atomicS_scalar {v : Form} (hs : isScalar v = true)
    (hok : pyOk v = true) : atomicS v = format_repr v := by
  have h := tryEval_format_repr hs hok
  cases v with
  | str s => simp [atomicS, h]
  | int n => simp [atomicS, h]
  | bool b => simp [atomicS, h]
  | pyNone => simp [atomicS, h]
  | ellip => simp [isScalar] at hs
  | unq t v => simp [isScalar] at hs
  | tup xs =>
    cases xs with
    | nil => simp [atomicS, h]
    | cons x xs => simp [isScalar] at hs

theorem isWs_false_facts {c : Char} (h : isWs c = false) :
    c ≠ ' ' ∧ c ≠ '\n' := by
  constructor <;> (intro hcon; rw [hcon] at h; exact absurd h (by decide))

/-- The first character of any atom emission: never whitespace, never a
closing paren or comma (so the parser's delimiter checks cannot
misfire on it). -/
theorem atomicS_head (v : Form) :
    ∃ c t, atomicS v = c :: t ∧ isWs c = false ∧ c ≠ ')' ∧ c ≠ ',' := by
  have hpick : ∃ c t, pickleExpr v = c :: t ∧ isWs c = false ∧ c ≠ ')' ∧
      c ≠ ',' := ⟨'_', _, rfl, by decide, by decide, by decide⟩
  cases v with
  | ellip => exact ⟨'.', _, rfl, by decide, by decide, by decide⟩
  | tup xs =>
    cases xs with
    | nil =>
      simp only [atomicS]
      split
      · exact ⟨'(', _, rfl, by decide, by decide, by decide⟩
      · exact hpick
    | cons x xs =>
      refine ⟨'(', padNl (joinSep [',', '\n']
        (atomicS x :: atomicListS xs)) ++ [',', ')'], ?_, by decide,
        by decide, by decide⟩
      simp [atomicS, lispNormal, atomicListS]
  | str s =>
    simp only [atomicS]
    split
    · simp only [format_repr, pyReprStr]
      split
      · exact ⟨'"', _, rfl, by decide, by decide, by decide⟩
      · exact ⟨'\'', _, rfl, by decide, by decide, by decide⟩
    · exact hpick
  | int n =>
    simp only [atomicS]
    split
    · exact ⟨'(', intRepr n ++ [')'], rfl, by decide, by decide, by decide⟩
    · exact hpick
  | bool b =>
    simp only [atomicS]
    split
    · cases b
      · exact ⟨'F', "alse".data, rfl, by decide, by decide, by decide⟩
      · exact ⟨'T', "rue".data, rfl, by decide, by decide, by decide⟩
    · exact hpick
  | pyNone =>
    simp only [atomicS]
    split
    · exact ⟨'N', "one".data, rfl, by decide, by decide, by decide⟩
    · exact hpick
  | unq t v =>
    simp only [atomicS]
    split
    · exact ⟨'_', "Unquote(...)".data, rfl, by decide, by decide, by decide⟩
    · exact hpick

theorem padK_sep (k : Nat) :
    padK (k + 1) [',', '\n'] = ',' :: '\n' :: spaces (k + 1) := by
  simp [padK]

theorem join_decomp (k : Nat) (rest : List Char) :
    ∀ (xs : FList) (x : Form),
      padK (k + 1) (joinSep [',', '\n'] (atomicS x :: atomicListS xs)) ++
          ',' :: ')' :: rest =
        padK (k + 1) (atomicS x) ++ ',' :: tupTail k rest xs
  | .nil, x => by
    simp [atomicListS, joinSep, tupTail]
  | .cons y ys, x => by
    have ih := join_decomp k rest ys y
    simp only [atomicListS, joinSep, padK_append, padK_sep, tupTail]
    rw [List.append_assoc, List.append_assoc, ih]
    simp [List.append_assoc]

theorem atomic_tup_decomp (k : Nat) (rest : List Char) (x : Form)
    (xs : FList) :
    padK k (atomicS (.tup (.cons x xs))) ++ rest =
      '(' :: (padK (k + 1) (atomicS x) ++ ',' :: tupTail k rest xs) := by
  have h1 : atomicS (.tup (.cons x xs)) =
      lispNormal (atomicS x :: atomicListS xs) := by
    simp [atomicS, atomicListS]
  rw [h1]
  simp only [lispNormal]
  rw [padK_cons, if_neg (by decide : ('(' : Char) ≠ '\n')]
  rw [padK_append, padK_padNl]
  have h2 : padK k [',', ')'] = [',', ')'] :=
    padK_no_nl k (by decide)
  rw [h2]
  simp only [List.cons_append, List.nil_append, List.append_assoc,
    List.cons.injEq, true_and]
  have := join_decomp k rest xs x
  simpa [List.append_assoc] using this

theorem ofList_toList : ∀ xs : FList, FList.ofList (FList.toList xs) = xs
  | .nil => rfl
  | .cons x xs => by
    simp only [FList.toList, FList.ofList]
    rw [ofList_toList xs]

theorem drop_spaces (X : List Char) (n : Nat) :
    (spaces n ++ X).dropWhile isWs = X.dropWhile isWs := by
  induction n with
  | zero => simp [spaces]
  | succ n ih =>
    simp only [spaces, List.replicate_succ, List.cons_append,
      List.dropWhile_cons]
    rw [if_pos (by decide)]
    simpa [spaces] using ih

theorem parseTupleRest_succ (f : Nat) (acc : List Form) (l : List Char) :
    parseTupleRest (f + 1) acc l =
      (match l.dropWhile isWs with
       | [] => none
       | c :: r =>
         if c = ')' then some (.tup (FList.ofList acc.reverse), r)
         else
           match parseVal f (c :: r) with
           | some (v, r2) =>
             (match r2.dropWhile isWs with
              | [] => none
              | c3 :: r3 =>
                if c3 = ',' then parseTupleRest f (v :: acc) r3
                else none)
           | none => none) := rfl

/-- Shared scalar case of the round-trip: the emission has no newline,
so padding is inert, and `parseVal` reads back `_format_repr`. -/
theorem parse_atomic_scalar {v : Form} (hs : isScalar v = true)
    (hok : pyOk v = true) (k fuel : Nat) (rest : List Char)
    (hf : 2 ≤ fuel) :
    parseVal fuel (padK k (atomicS v) ++ rest) = some (v, rest) := by
  rw [atomicS_scalar hs hok, padK_no_nl k (format_repr_no_nl hs hok)]
  obtain ⟨f, rfl⟩ : ∃ f, fuel = f + 2 := ⟨fuel - 2, by omega⟩
  exact parseVal_format_repr hs hok f rest

mutual
/-- Round-trip: parsing a (`pprint`-padded) atom emission recovers the
value, leaving the continuation untouched. -/
theorem parse_atomic : ∀ (v : Form), pyOk v = true →
    ∀ (k fuel : Nat) (rest : List Char), pfuel v ≤ fuel →
      parseVal fuel (padK k (atomicS v) ++ rest) = some (v, rest)
  | .str s, hok, k, fuel, rest, hf =>
    @parse_atomic_scalar (.str s) rfl hok k fuel rest (by simpa [pfuel] using hf)
  | .int n, hok, k, fuel, rest, hf =>
    @parse_atomic_scalar (.int n) rfl hok k fuel rest (by simpa [pfuel] using hf)
  | .bool b, hok, k, fuel, rest, hf =>
    @parse_atomic_scalar (.bool b) rfl hok k fuel rest (by simpa [pfuel] using hf)
  | .pyNone, hok, k, fuel, rest, hf =>
    @parse_atomic_scalar .pyNone rfl hok k fuel rest (by simpa [pfuel] using hf)
  | .tup .nil, hok, k, fuel, rest, hf =>
    @parse_atomic_scalar (.tup .nil) rfl hok k fuel rest (by simpa [pfuel] using hf)
  | .unq t v, hok, _, _, _, _ => by simp [pyOk] at hok
  | .ellip, _, k, fuel, rest, hf => by
    have h1 : padK k (atomicS .ellip) = "...".data := padK_no_nl k (by decide)
    obtain ⟨f, rfl⟩ : ∃ f, fuel = f + 1 :=
      ⟨fuel - 1, by simp [pfuel] at hf; omega⟩
    rw [h1]
    rfl
  | .tup (.cons x xs), hok, k, fuel, rest, hf => by
    have hok' : pyOk x = true ∧ pyOkList xs = true := by
      simpa [pyOk, pyOkList] using hok
    have hpf : 1 + pfuel x + pfuelList xs ≤ fuel := by
      simpa [pfuel] using hf
    obtain ⟨f, rfl⟩ : ∃ f, fuel = f + 1 := ⟨fuel - 1, by omega⟩
    rw [atomic_tup_decomp, parseVal_lpar]
    obtain ⟨c, t, hct, hw, hcp, _⟩ := atomicS_head x
    have hpadct : padK (k + 1) (atomicS x) = c :: padK (k + 1) t := by
      rw [hct, padK_cons, if_neg (isWs_false_facts hw).2]
      rfl
    rw [hpadct]
    simp only [List.cons_append]
    rw [List.dropWhile_cons, if_neg (by simp [hw])]
    dsimp only
    rw [if_neg hcp]
    rw [show c :: (padK (k + 1) t ++ ',' :: tupTail k rest xs) =
      padK (k + 1) (atomicS x) ++ ',' :: tupTail k rest xs by
        rw [hpadct]; simp]
    rw [parse_atomic x hok'.1 (k + 1) f (',' :: tupTail k rest xs)
      (by omega)]
    dsimp only
    rw [List.dropWhile_cons, if_neg (by decide)]
    dsimp only
    rw [if_neg (by decide : (',' : Char) ≠ ')'), if_pos rfl]
    rw [parse_tail xs hok'.2 k f rest [x] (by omega)]
    rw [show ([x].reverse ++ FList.toList xs) = x :: FList.toList xs by simp]
    rw [show FList.ofList (x :: FList.toList xs) =
      FList.cons x (FList.ofList (FList.toList xs)) from rfl]
    rw [ofList_toList]
/-- Round-trip for the element loop: `parseTupleRest` reads the
remaining padded elements and the closing paren. -/
theorem parse_tail : ∀ (xs : FList), pyOkList xs = true →
    ∀ (k fuel : Nat) (rest : List Char) (acc : List Form),
      pfuelList xs ≤ fuel →
      parseTupleRest fuel acc (tupTail k rest xs) =
        some (.tup (FList.ofList (acc.reverse ++ FList.toList xs)), rest)
  | .nil, _, k, fuel, rest, acc, hf => by
    obtain ⟨f, rfl⟩ : ∃ f, fuel = f + 1 :=
      ⟨fuel - 1, by simp [pfuelList] at hf; omega⟩
    rw [show FList.toList .nil = [] from rfl, List.append_nil]
    rfl
  | .cons y ys, hok, k, fuel, rest, acc, hf => by
    have hok' : pyOk y = true ∧ pyOkList ys = true := by
      simpa [pyOkList] using hok
    have hpf : 1 + pfuel y + pfuelList ys ≤ fuel := by
      simpa [pfuelList] using hf
    obtain ⟨f, rfl⟩ : ∃ f, fuel = f + 1 := ⟨fuel - 1, by omega⟩
    rw [parseTupleRest_succ]
    obtain ⟨c, t, hct, hw, hcp, _⟩ := atomicS_head y
    have hpadct : padK (k + 1) (atomicS y) = c :: padK (k + 1) t := by
      rw [hct, padK_cons, if_neg (isWs_false_facts hw).2]
      rfl
    have hdw : (tupTail k rest (.cons y ys)).dropWhile isWs =
        c :: (padK (k + 1) t ++ ',' :: tupTail k rest ys) := by
      simp only [tupTail, List.dropWhile_cons]
      rw [if_pos (by decide)]
      rw [drop_spaces]
      rw [hpadct]
      simp only [List.cons_append, List.dropWhile_cons]
      rw [if_neg (by simp [hw])]
    rw [hdw]
    dsimp only
    rw [if_neg hcp]
    rw [show c :: (padK (k + 1) t ++ ',' :: tupTail k rest ys) =
      padK (k + 1) (atomicS y) ++ ',' :: tupTail k rest ys by
        rw [hpadct]; simp]
    rw [parse_atomic y hok'.1 (k + 1) f (',' :: tupTail k rest ys)
      (by omega)]
    dsimp only
    rw [List.dropWhile_cons, if_neg (by decide)]
    dsimp only
    rw [if_pos rfl]
    rw [parse_tail ys hok'.2 k f rest (y :: acc) (by omega)]
    rw [show ((y :: acc).reverse ++ FList.toList ys) =
      acc.reverse ++ (y :: FList.toList ys) by simp]
    rfl
end

/-! Length accounting: the fuel bound is satisfied by the emission's
own length, so `tryEval`'s fuel (length + 1) always suffices. -/

mutual
theorem pfuel_le : ∀ v : Form, pyOk v = true →
    pfuel v ≤ (atomicS v).length + 1
  | .ellip, _ => by decide
  | .tup .nil, _ => by decide
  | .str s, hok => by
    have hne := format_repr_ne_nil (Form.str s)
    rw [show pfuel (Form.str s) = 2 from rfl,
      @atomicS_scalar (Form.str s) rfl hok]
    cases h : format_repr (Form.str s) with
    | nil => exact absurd h hne
    | cons a l => simp
  | .int n, hok => by
    have hne := format_repr_ne_nil (Form.int n)
    rw [show pfuel (Form.int n) = 2 from rfl,
      @atomicS_scalar (Form.int n) rfl hok]
    cases h : format_repr (Form.int n) with
    | nil => exact absurd h hne
    | cons a l => simp
  | .bool b, hok => by
    have hne := format_repr_ne_nil (Form.bool b)
    rw [show pfuel (Form.bool b) = 2 from rfl,
      @atomicS_scalar (Form.bool b) rfl hok]
    cases h : format_repr (Form.bool b) with
    | nil => exact absurd h hne
    | cons a l => simp
  | .pyNone, hok => by
    have hne := format_repr_ne_nil Form.pyNone
    rw [show pfuel Form.pyNone = 2 from rfl,
      @atomicS_scalar Form.pyNone rfl hok]
    cases h : format_repr Form.pyNone with
    | nil => exact absurd h hne
    | cons a l => simp
  | .unq t v, hok => by simp [pyOk] at hok
  | .tup (.cons x xs), hok => by
    have hok' : pyOk x = true ∧ pyOkList xs = true := by
      simpa [pyOk, pyOkList] using hok
    have h1 := pfuel_le x hok'.1
    have h2 := pfuelList_le xs hok'.2
    have hdec := atomic_tup_decomp 0 [] x xs
    rw [padK_zero, List.append_nil] at hdec
    have hlen := congrArg List.length hdec
    simp only [List.length_cons, List.length_append] at hlen
    have hpk := length_padK (0 + 1) (atomicS x)
    rw [show pfuel (Form.tup (FList.cons x xs)) =
      1 + pfuel x + pfuelList xs from rfl, hlen]
    omega
theorem pfuelList_le : ∀ xs : FList, pyOkList xs = true →
    pfuelList xs ≤ (tupTail 0 [] xs).length
  | .nil, _ => by decide
  | .cons y ys, hok => by
    have hok' : pyOk y = true ∧ pyOkList ys = true := by
      simpa [pyOkList] using hok
    have h1 := pfuel_le y hok'.1
    have h2 := pfuelList_le ys hok'.2
    have hpk := length_padK (0 + 1) (atomicS y)
    rw [show pfuelList (FList.cons y ys) =
      1 + pfuel y + pfuelList ys from rfl]
    simp only [tupTail, List.length_cons, List.length_append, spaces,
      List.length_replicate]
    omega
end

/-- Every modelled literal's atom emission round-trips through
`ast.literal_eval` as a whole string. -/
theorem tryEval_atomicS {v : Form} (hok : pyOk v = true) :
    tryEval (atomicS v) = some v := by
  have h := parse_atomic v hok 0 ((atomicS v).length + 1) []
    (pfuel_le v hok)
  rw [padK_zero, List.append_nil] at h
  simp [tryEval, h]

/-- C1: a `('quote', x)` form with exactly one payload compiles to the
atom emission of `x` — for every environment and any fuel, including
fuel 1, where any semantic recursion into `x` would run out — and on
the modelled literal domain `ast.literal_eval` of that emission
returns a value equal to `x`. -/
theorem claim1_quote_atomic (C : Comp) (x : Form) (fuel : Nat)
    (hok : pyOk x = true) :
    compileFormF (fuel + 1) C
        (.tup (.cons (.str "quote") (.cons x .nil))) =
      .ok (atomicS x) ∧
    tryEval (atomicS x) = some x := by
  constructor
  · rfl
  · exact tryEval_atomicS hok

theorem claim1_quote_atomic_witness :
    pyOk (Form.int 42) = true ∧
    (compileFormF 1 ⟨"__main__", ⟨none, none, []⟩⟩
        (.tup (.cons (.str "quote") (.cons (Form.int 42) .nil))) =
      .ok (atomicS (Form.int 42)) ∧
    tryEval (atomicS (Form.int 42)) = some (Form.int 42)) :=
  ⟨rfl, claim1_quote_atomic ⟨"__main__", ⟨none, none, []⟩⟩ (Form.int 42) 0 rfl⟩

/-- C7: the lambda form with parameter tuple
`('a', ':/', 'b', ':', ':*', ':?', ':**', 'kwargs')` and body `('a',)`
compiles to exactly `(lambda a, /, b, *, **kwargs: a)`: in pairs,
`(':*', ':?')` renders as bare `*` and `(':**', 'kwargs')` as
`**kwargs`; the single `':/'` renders as `/`. -/
theorem claim7_lambda_text :
    compileFormF 2 ⟨"__main__", ⟨none, none, []⟩⟩
      (.tup (FList.ofList
        [.str "lambda",
         .tup (FList.ofList
           [.str "a", .str ":/", .str "b", .str ":",
            .str ":*", .str ":?", .str ":**", .str "kwargs"]),
         .str "a"])) =
      .ok "(lambda a, /, b, *, **kwargs: a)".data := by
  rfl

/-- C8: a control word (`str` atom starting with `:`) is never
rewritten: `compile_form` routes it straight to atom emission in every
environment (never to `fragment`'s import rewriting), that emission
is a Python string literal evaluating back to the same string, and
the template engine returns it unchanged and unqualified, both as a
whole form and as a `(':?', word)` pair inside a template tuple. -/
theorem claim8_control_words (s : String) (hs : strStarts s ':' = true)
    (hok : pyOk (Form.str s) = true) :
    (∀ (C : Comp) (fuel : Nat),
      compileFormF (fuel + 1) C (.str s) = .ok (atomicS (.str s))) ∧
    atomicS (.str s) = pyReprStr s.data ∧
    tryEval (pyReprStr s.data) = some (.str s) ∧
    (∀ env : QEnv, template_form env (.str s) = .ok (.str s)) ∧
    (∀ (env : QEnv) (inv : Bool) (rest : FList),
      template_forms env inv (.cons (.str s) rest) =
        match template_forms env false rest with
        | .ok m => .ok (.str ":?" :: .str s :: m)
        | .error e => .error e) := by
  have hsq : atomicS (.str s) = pyReprStr s.data :=
    (@atomicS_scalar (.str s) rfl hok).trans rfl
  have hpar : strStarts s '(' = false := by
    simp only [strStarts, beq_iff_eq] at hs ⊢
    rw [hs]
    simp
  have hlu : is_lissp_unicodeF (.str s) = false := by
    simp [is_lissp_unicodeF, hpar]
  refine ⟨?_, hsq, ?_, ?_, ?_⟩
  · intro C fuel
    show (if strStarts s ':' then Except.ok (atomicS (.str s))
      else .ok (fragmentC C.qualname s.data)) = .ok (atomicS (.str s))
    rw [if_pos hs]
  · rw [← hsq]
    exact tryEval_atomicS hok
  · intro env
    simp [template_form, hlu, hs]
  · intro env inv rest
    cases h : template_forms env false rest with
    | ok m => simp [template_forms, hs, h]
    | error e => simp [template_forms, hs, h]

theorem claim8_control_words_witness :
    strStarts ":foo" ':' = true ∧ pyOk (Form.str ":foo") = true ∧
    compileFormF 1 ⟨"m", ⟨none, none, []⟩⟩ (Form.str ":foo") =
      .ok (atomicS (Form.str ":foo")) ∧
    template_form ⟨"m", [], [], []⟩ (Form.str ":foo") =
      .ok (Form.str ":foo") :=
  ⟨by decide, by decide,
   (claim8_control_words ":foo" (by decide) (by decide)).1
     ⟨"m", ⟨none, none, []⟩⟩ 0,
   (claim8_control_words ":foo" (by decide) (by decide)).2.2.2.1
     ⟨"m", [], [], []⟩⟩

theorem toBytesBig_length (len n : Nat) :
    (toBytesBig len n).length = len := by
  induction len with
  | zero => rfl
  | succ k ih => simp [toBytesBig, ih]

theorem bytesVal_toBytesBig (len n : Nat) :
    bytesVal (toBytesBig len n) = n % 256 ^ len := by
  induction len with
  | zero => simp [toBytesBig, bytesVal, Nat.mod_one]
  | succ k ih =>
    simp only [toBytesBig, bytesVal, toBytesBig_length, ih]
    rw [pow_succ, Nat.mod_mul]
    ring

theorem bitLen_lt (n : Nat) : n < 2 ^ bitLen n := by
  unfold bitLen
  split
  · omega
  · exact Nat.lt_log2_self

theorem counter_lt (c : Nat) : c < 256 ^ (1 + bitLen c / 8) := by
  have h1 : c < 2 ^ bitLen c := bitLen_lt c
  have h2 : bitLen c ≤ 8 * (1 + bitLen c / 8) := by omega
  calc c < 2 ^ bitLen c := h1
    _ ≤ 2 ^ (8 * (1 + bitLen c / 8)) := Nat.pow_le_pow_right (by norm_num) h2
    _ = 256 ^ (1 + bitLen c / 8) := by
      rw [Nat.pow_mul]

theorem bytesVal_counterBytes (c : Nat) : bytesVal (counterBytes c) = c := by
  rw [counterBytes, bytesVal_toBytesBig, Nat.mod_eq_of_lt (counter_lt c)]

theorem counterBytes_inj {c₁ c₂ : Nat}
    (h : counterBytes c₁ = counterBytes c₂) : c₁ = c₂ := by
  have h1 := bytesVal_counterBytes c₁
  rw [h, bytesVal_counterBytes c₂] at h1
  omega

/-- Entering a template pushes the fresh counter, and every gensym
issued directly under it resolves exactly that counter. -/
theorem get_counter_enter (L : LisspSt) (st : PState)
    (hctx : st.context.count .unq ≤ st.context.count .tpl) :
    get_counter (enterTemplate L st).2 = .ok (L.templateCount + 1) := by
  unfold get_counter enterTemplate
  rw [if_neg (by simp)]
  rw [if_neg (by
    simp only [List.count_append, List.count_cons, List.count_nil,
      List.count_singleton]
    norm_num
    omega)]
  rw [if_pos (by simp)]
  simp

theorem exit_enter (L : LisspSt) (st : PState) :
    exitTemplate (enterTemplate L st).2 = st := by
  have h1 : (st.counters ++ [L.templateCount + 1]).dropLast = st.counters :=
    List.dropLast_concat
  have h2 : (st.context ++ [CtxItem.tpl]).dropLast = st.context :=
    List.dropLast_concat
  show PState.mk ((st.counters ++ [L.templateCount + 1]).dropLast)
    ((st.context ++ [CtxItem.tpl]).dropLast) = st
  rw [h1, h2]

/-- C3: gensym determinism and shape.  With the BLAKE2s state over
update stream `u` abstracted as `H u` (5-byte digests), a template
context resolves one fixed counter, every gensym under it computes the
same pure function of (source text, module `__name__`, that counter)
applied to its form text, the munged `$` marker is `QzDOLR_`, the
woven hash is the 8-character lowercase-Base32 encoding of the 40-bit
digest (prefixed as `_Qz<hash>__` when the form has no marker, and
substituted for every marker otherwise), and two sibling templates of
the same reader resolve distinct counters, hence feed distinct byte
streams to the hash. -/
theorem claim3_gensym (H : List Nat → List Nat) (code mname : String)
    (hH : ∀ bs, (H bs).length = 5) (L : LisspSt) (st : PState)
    (hctx : st.context.count .unq ≤ st.context.count .tpl) :
    get_counter (enterTemplate L st).2 = .ok (L.templateCount + 1) ∧
    (∀ form, gensymStep H code mname (enterTemplate L st).2 form =
      .ok (gensymName H code mname (L.templateCount + 1) form)) ∧
    munge "$" = "QzDOLR_" ∧
    (∀ (c : Nat) (form : String),
      (isSub (munge "$").data form.data = false →
        gensymName H code mname c form = String.mk ("_Qz".data ++
          (b32lower5 (H (strBytes code ++ strBytes mname ++
            counterBytes c)) ++ "__".data) ++ form.data)) ∧
      (isSub (munge "$").data form.data = true →
        gensymName H code mname c form = String.mk
          (replaceAll (munge "$").data ("_Qz".data ++
            (b32lower5 (H (strBytes code ++ strBytes mname ++
              counterBytes c)) ++ "__".data)) form.data)) ∧
      (b32lower5 (H (strBytes code ++ strBytes mname ++
        counterBytes c))).length = 8 ∧
      (∀ ch ∈ b32lower5 (H (strBytes code ++ strBytes mname ++
        counterBytes c)), ch ∈ b32alpha)) ∧
    (get_counter (enterTemplate (enterTemplate L st).1
        (exitTemplate (enterTemplate L st).2)).2 =
      .ok (L.templateCount + 2) ∧
     counterBytes (L.templateCount + 1) ≠
       counterBytes (L.templateCount + 2)) := by
  have halpha : ∀ z, z < 32 → b32alpha.getD z ' ' ∈ b32alpha := by decide
  refine ⟨get_counter_enter L st hctx, ?_, rfl, ?_, ?_, ?_⟩

  · intro form
    rw [gensymStep, get_counter_enter L st hctx]
  · intro c form
    refine ⟨?_, ?_, ?_, ?_⟩
    · intro hm
      rw [gensymName]
      rw [if_neg (by rw [hm]; exact Bool.false_ne_true)]
    · intro hm
      rw [gensymName, if_pos hm]
    · simp [b32lower5, hH]
    · intro ch hch
      rw [b32lower5, if_pos (hH _)] at hch
      obtain ⟨i, _, rfl⟩ := List.mem_map.mp hch
      exact halpha _ (Nat.mod_lt _ (by norm_num))
  · rw [exit_enter L st]
    exact get_counter_enter ⟨L.templateCount + 1⟩ st hctx
  · intro h
    have := counterBytes_inj h
    omega

theorem claim3_gensym_witness :
    (([] : List CtxItem).count CtxItem.unq ≤
      ([] : List CtxItem).count CtxItem.tpl) ∧
    get_counter (enterTemplate ⟨0⟩ ⟨[], []⟩).2 = .ok 1 ∧
    gensymStep (fun _ => [0, 0, 0, 0, 0]) "x" "m"
        (enterTemplate ⟨0⟩ ⟨[], []⟩).2 "foo" =
      .ok (gensymName (fun _ => [0, 0, 0, 0, 0]) "x" "m" 1 "foo") ∧
    munge "$" = "QzDOLR_" ∧
    counterBytes 1 ≠ counterBytes 2 := by
  have A := claim3_gensym (fun _ => [0, 0, 0, 0, 0]) "x" "m"
    (fun _ => rfl) ⟨0⟩ ⟨[], []⟩ (by decide)
  exact ⟨by decide, A.1, A.2.1 "foo", A.2.2.1, A.2.2.2.2.2⟩

end Hissp
